import Mathlib

/-!
Verification development for the SPIJ norma tracker
(`projects/spij-norma-tracker/app.py`).

The Python program is shallowly embedded below:

* Python `str` is modelled as Lean `String` (a list of Unicode code
  points); helper functions (`pyIsSpace`, `pySplitlines`,
  `pyStartswith`, …) reproduce the exact semantics of the Python
  string operations the program uses.
* `re.sub(r"\s+", " ", ·)` and `str.strip()` give `normalize_text`.
* The BeautifulSoup subset used by `extract_norma_text`
  (tag tokenization, removal of `script/style/nav/footer/header`
  elements, `get_text("\n")`) is modelled by a small HTML scanner.
* `hashlib.sha256(...).hexdigest()` is modelled by a complete
  executable SHA-256 over the UTF-8 encoding of the text.
* The SQLite-backed store is modelled as a list of rows in insertion
  (rowid) order plus the AUTOINCREMENT counter; `ORDER BY fetched_at`
  is modelled by sorting with SQLite's BINARY text collation
  (code-point lexicographic, which equals byte-wise UTF-8 comparison),
  with ties resolved by rowid exactly as SQLite's
  `(norma_id, fetched_at)` index scan resolves them.
* `difflib.unified_diff` (Python 3.11) is embedded in full:
  `SequenceMatcher.find_longest_match` (with `isjunk=None` and
  `autojunk=True`), `get_matching_blocks`, `get_opcodes`,
  `get_grouped_opcodes`, and the unified-diff line generation,
  followed by the `iter_changes` filter of the application.
-/

/-! ## Python string primitives -/

/-- The set of characters for which Python's `str.isspace()` is true
(also the character class of `\s` in a `str` regular expression). -/
def pyIsSpace (c : Char) : Bool :=
  c.toNat = 0x9 || c.toNat = 0xa || c.toNat = 0xb || c.toNat = 0xc ||
  c.toNat = 0xd || c.toNat = 0x1c || c.toNat = 0x1d || c.toNat = 0x1e ||
  c.toNat = 0x1f || c.toNat = 0x20 || c.toNat = 0x85 || c.toNat = 0xa0 ||
  c.toNat = 0x1680 || (0x2000 ≤ c.toNat && c.toNat ≤ 0x200a) ||
  c.toNat = 0x2028 || c.toNat = 0x2029 || c.toNat = 0x202f ||
  c.toNat = 0x205f || c.toNat = 0x3000

/-- The line-boundary characters of Python's `str.splitlines()`
(`\r\n` additionally counts as a single boundary). -/
def pyIsLineBreak (c : Char) : Bool :=
  c.toNat = 0xa || c.toNat = 0xb || c.toNat = 0xc || c.toNat = 0xd ||
  c.toNat = 0x1c || c.toNat = 0x1d || c.toNat = 0x1e || c.toNat = 0x85 ||
  c.toNat = 0x2028 || c.toNat = 0x2029

/-- Worker for `pySplitlines`: `acc` holds the current line reversed. -/
def pySplitlinesAux : List Char → List Char → List String
  | acc, [] => if acc.isEmpty then [] else [⟨acc.reverse⟩]
  | acc, '\r' :: '\n' :: cs => (⟨acc.reverse⟩ : String) :: pySplitlinesAux [] cs
  | acc, c :: cs =>
    if pyIsLineBreak c then (⟨acc.reverse⟩ : String) :: pySplitlinesAux [] cs
    else pySplitlinesAux (c :: acc) cs

/-- Python `str.splitlines()` (without `keepends`). -/
def pySplitlines (s : String) : List String :=
  pySplitlinesAux [] s.data

/-- Python `s.startswith(pre)`. -/
def pyStartswith (s pre : String) : Bool :=
  pre.data.isPrefixOf s.data

/-- Worker for `re.sub(r"\s+", " ", ·)`: `prevWs` records whether the
previous character was part of a whitespace run (already replaced by a
single `' '`). -/
def collapseWsAux : Bool → List Char → List Char
  | _, [] => []
  | prevWs, c :: cs =>
    if pyIsSpace c then
      if prevWs then collapseWsAux true cs else ' ' :: collapseWsAux true cs
    else c :: collapseWsAux false cs

/-- Python `re.sub(r"\s+", " ", s)`: each maximal run of whitespace
characters becomes a single space. -/
def reSubWsToSpace (l : List Char) : List Char :=
  collapseWsAux false l

/-- Python `str.strip()`: remove leading and trailing whitespace. -/
def pyStrip (l : List Char) : List Char :=
  ((l.dropWhile pyIsSpace).reverse.dropWhile pyIsSpace).reverse

/-- `normalize_text` from `app.py`:
`compact = re.sub(r"\s+", " ", text); return compact.strip()`. -/
def normalize_text (text : String) : String :=
  ⟨pyStrip (reSubWsToSpace text.data)⟩

/-! ## HTML text extraction (BeautifulSoup subset)

`extract_norma_text` parses the markup with BeautifulSoup
(`html.parser`), decomposes every `script`, `style`, `nav`, `footer`
and `header` element, and joins the remaining text nodes with
`get_text("\n")`.  The model below reproduces that behaviour for
ordinary markup: a scanner splits the input into tag tokens
(`<` … `>`) and maximal text runs; text runs inside a removed element
(up to the first matching close tag) are dropped; the surviving
non-empty text runs — BeautifulSoup creates a string node only for a
non-empty run — are joined with the `"\n"` separator. -/

inductive HtmlToken where
  | text (s : List Char) : HtmlToken
  | tag (body : List Char) : HtmlToken
deriving DecidableEq

/-- Scanner state: accumulating a text run or the inside of a tag. -/
inductive ScanMode where
  | inText (acc : List Char) : ScanMode
  | inTag (acc : List Char) : ScanMode

/-- Split markup into tag tokens and text runs. -/
def scanHtml : ScanMode → List Char → List HtmlToken
  | .inText acc, [] => if acc.isEmpty then [] else [.text acc.reverse]
  | .inTag acc, [] => [.tag acc.reverse]
  | .inText acc, c :: cs =>
    if c = '<' then
      if acc.isEmpty then scanHtml (.inTag []) cs
      else .text acc.reverse :: scanHtml (.inTag []) cs
    else scanHtml (.inText (c :: acc)) cs
  | .inTag acc, c :: cs =>
    if c = '>' then .tag acc.reverse :: scanHtml (.inText []) cs
    else scanHtml (.inTag (c :: acc)) cs

/-- ASCII lower-casing of a tag name character. -/
def asciiLower (c : Char) : Char :=
  if 'A' ≤ c ∧ c ≤ 'Z' then Char.ofNat (c.toNat + 32) else c

/-- The name of a tag token: leading `/` skipped, letters up to the
first space or `/`, lower-cased. -/
def tagNameOf (body : List Char) : List Char :=
  ((body.dropWhile (· = '/')).takeWhile
    (fun c => ¬ (c = ' ' ∨ c = '/' ∨ c = '\t' ∨ c = '\n'))).map asciiLower

/-- Is the tag token a closing tag? -/
def isCloseTag (body : List Char) : Bool :=
  match body with
  | '/' :: _ => true
  | _ => false

/-- The selectors removed by `extract_norma_text`. -/
def removedTagNames : List (List Char) :=
  ["script".data, "style".data, "nav".data, "footer".data, "header".data]

/-- Drop every token inside a removed element.  The state holds the
name of the removed element currently being skipped (skipping ends at
the first matching close tag, which suffices for the non-nested
occurrences of these elements). -/
def dropRemovedAux : Option (List Char) → List HtmlToken → List HtmlToken
  | _, [] => []
  | none, .tag b :: rest =>
    if ¬ isCloseTag b ∧ tagNameOf b ∈ removedTagNames then
      dropRemovedAux (some (tagNameOf b)) rest
    else .tag b :: dropRemovedAux none rest
  | none, t :: rest => t :: dropRemovedAux none rest
  | some nm, .tag b :: rest =>
    if isCloseTag b ∧ tagNameOf b = nm then dropRemovedAux none rest
    else dropRemovedAux (some nm) rest
  | some nm, _ :: rest => dropRemovedAux (some nm) rest

/-- The surviving text-node strings of the decomposed document, in
document order. -/
def htmlStrings (html : String) : List String :=
  (dropRemovedAux none (scanHtml (.inText []) html.data)).filterMap
    (fun t => match t with
      | .text s => if s.isEmpty then none else some ⟨s⟩
      | .tag _ => none)

/-- `"\n".join`-style interleaving used by `soup.get_text("\n")` and by
the final `"\n".join(cleaned_lines)`. -/
def joinWithNewline : List String → String
  | [] => ""
  | [s] => s
  | s :: rest => s ++ "\n" ++ joinWithNewline rest

/-- `soup.get_text("\n")` after decomposing the removed selectors. -/
def soupGetText (html : String) : String :=
  joinWithNewline (htmlStrings html)

/-- The cleaned line list of `extract_norma_text`:
normalize every line of the extracted text, keep lines longer than two
characters. -/
def extractLines (html : String) : List String :=
  (((pySplitlines (soupGetText html)).map normalize_text).filter
    (fun line => 2 < line.length))

/-- `extract_norma_text` from `app.py`. -/
def extract_norma_text (html : String) : String :=
  joinWithNewline (extractLines html)

/-! ## SHA-256 (`hashlib.sha256(text.encode("utf-8")).hexdigest()`) -/

/-- UTF-8 encoding of one code point, as byte values. -/
def utf8Char (c : Char) : List Nat :=
  let n := c.toNat
  if n < 0x80 then [n]
  else if n < 0x800 then
    [0xc0 ||| (n >>> 6), 0x80 ||| (n &&& 0x3f)]
  else if n < 0x10000 then
    [0xe0 ||| (n >>> 12), 0x80 ||| ((n >>> 6) &&& 0x3f), 0x80 ||| (n &&& 0x3f)]
  else
    [0xf0 ||| (n >>> 18), 0x80 ||| ((n >>> 12) &&& 0x3f),
     0x80 ||| ((n >>> 6) &&& 0x3f), 0x80 ||| (n &&& 0x3f)]

/-- UTF-8 encoding of a string (`text.encode("utf-8")`). -/
def utf8Encode (s : String) : List Nat :=
  s.data.flatMap utf8Char

/-- 32-bit truncation. -/
def w32 (n : Nat) : Nat := n % 4294967296

/-- 32-bit right rotation. -/
def rotr32 (k w : Nat) : Nat :=
  w32 ((w >>> k) ||| (w <<< (32 - k)))

/-- The SHA-256 round constants. -/
def k256 : List Nat :=
  [1116352408, 1899447441, 3049323471, 3921009573, 961987163, 1508970993,
   2453635748, 2870763221, 3624381080, 310598401, 607225278, 1426881987,
   1925078388, 2162078206, 2614888103, 3248222580, 3835390401, 4022224774,
   264347078, 604807628, 770255983, 1249150122, 1555081692, 1996064986,
   2554220882, 2821834349, 2952996808, 3210313671, 3336571891, 3584528711,
   113926993, 338241895, 666307205, 773529912, 1294757372, 1396182291,
   1695183700, 1986661051, 2177026350, 2456956037, 2730485921, 2820302411,
   3259730800, 3345764771, 3516065817, 3600352804, 4094571909, 275423344,
   430227734, 506948616, 659060556, 883997877, 958139571, 1322822218,
   1537002063, 1747873779, 1955562222, 2024104815, 2227730452, 2361852424,
   2428436474, 2756734187, 3204031479, 3329325298]

/-- The SHA-256 working state. -/
structure Sha8 where
  h0 : Nat
  h1 : Nat
  h2 : Nat
  h3 : Nat
  h4 : Nat
  h5 : Nat
  h6 : Nat
  h7 : Nat

/-- The SHA-256 initial hash value. -/
def shaInit : Sha8 :=
  ⟨1779033703, 3144134277, 1013904242, 2773480762,
   1359893119, 2600822924, 528734635, 1541459225⟩

/-- Big-endian 32-bit word from four bytes. -/
def bytesToWord : List Nat → Nat
  | [b0, b1, b2, b3] => (b0 <<< 24) ||| (b1 <<< 16) ||| (b2 <<< 8) ||| b3
  | _ => 0

/-- Split a list into 4-byte groups. -/
def group4 : List Nat → List (List Nat)
  | b0 :: b1 :: b2 :: b3 :: rest => [b0, b1, b2, b3] :: group4 rest
  | _ => []

/-- Extend the 16 schedule words to 64. -/
def extendSchedule : Nat → List Nat → List Nat
  | 0, w => w
  | n + 1, w =>
    let t := w.length
    let s0 :=
      rotr32 7 (w.getD (t - 15) 0) ^^^ rotr32 18 (w.getD (t - 15) 0) ^^^
        (w.getD (t - 15) 0 >>> 3)
    let s1 :=
      rotr32 17 (w.getD (t - 2) 0) ^^^ rotr32 19 (w.getD (t - 2) 0) ^^^
        (w.getD (t - 2) 0 >>> 10)
    extendSchedule n
      (w ++ [w32 (w.getD (t - 16) 0 + s0 + w.getD (t - 7) 0 + s1)])

/-- One SHA-256 round. -/
def shaRound (st : Sha8) (kw : Nat × Nat) : Sha8 :=
  let S1 := rotr32 6 st.h4 ^^^ rotr32 11 st.h4 ^^^ rotr32 25 st.h4
  let ch := (st.h4 &&& st.h5) ^^^ ((st.h4 ^^^ 0xffffffff) &&& st.h6)
  let temp1 := w32 (st.h7 + S1 + ch + kw.1 + kw.2)
  let S0 := rotr32 2 st.h0 ^^^ rotr32 13 st.h0 ^^^ rotr32 22 st.h0
  let maj := (st.h0 &&& st.h1) ^^^ (st.h0 &&& st.h2) ^^^ (st.h1 &&& st.h2)
  let temp2 := w32 (S0 + maj)
  ⟨w32 (temp1 + temp2), st.h0, st.h1, st.h2,
   w32 (st.h3 + temp1), st.h4, st.h5, st.h6⟩

/-- Compress one 64-byte block into the state. -/
def shaBlock (st : Sha8) (block : List Nat) : Sha8 :=
  let w := extendSchedule 48 ((group4 block).map bytesToWord)
  let f := (k256.zip w).foldl shaRound st
  ⟨w32 (st.h0 + f.h0), w32 (st.h1 + f.h1), w32 (st.h2 + f.h2),
   w32 (st.h3 + f.h3), w32 (st.h4 + f.h4), w32 (st.h5 + f.h5),
   w32 (st.h6 + f.h6), w32 (st.h7 + f.h7)⟩

/-- Split the padded message into 64-byte blocks. -/
def chunk64Aux : List Nat → Nat → List Nat → List (List Nat)
  | rev, _, [] => if rev.isEmpty then [] else [rev.reverse]
  | rev, cnt, b :: bs =>
    if cnt = 63 then (b :: rev).reverse :: chunk64Aux [] 0 bs
    else chunk64Aux (b :: rev) (cnt + 1) bs

/-- Big-endian 64-bit length field. -/
def len64Bytes (n : Nat) : List Nat :=
  [(n >>> 56) % 256, (n >>> 48) % 256, (n >>> 40) % 256, (n >>> 32) % 256,
   (n >>> 24) % 256, (n >>> 16) % 256, (n >>> 8) % 256, n % 256]

/-- SHA-256 padding. -/
def shaPad (msg : List Nat) : List Nat :=
  let zeros := (56 + 64 - ((msg.length + 1) % 64)) % 64
  msg ++ [0x80] ++ List.replicate zeros 0 ++ len64Bytes (msg.length * 8)

/-- Big-endian bytes of a 32-bit word. -/
def wordBytes (w : Nat) : List Nat :=
  [(w >>> 24) % 256, (w >>> 16) % 256, (w >>> 8) % 256, w % 256]

/-- The SHA-256 digest (32 bytes) of a byte message. -/
def sha256Bytes (msg : List Nat) : List Nat :=
  let f := (chunk64Aux [] 0 (shaPad msg)).foldl shaBlock shaInit
  wordBytes f.h0 ++ wordBytes f.h1 ++ wordBytes f.h2 ++ wordBytes f.h3 ++
    wordBytes f.h4 ++ wordBytes f.h5 ++ wordBytes f.h6 ++ wordBytes f.h7

/-- Lower-case hex digit. -/
def hexDigit (n : Nat) : Char :=
  "0123456789abcdef".data.getD n '0'

/-- Lower-case hex rendering of a byte list. -/
def bytesToHex (bs : List Nat) : List Char :=
  bs.flatMap (fun b => [hexDigit (b / 16 % 16), hexDigit (b % 16)])

/-- `hash_content` from `app.py`:
`hashlib.sha256(content_text.encode("utf-8")).hexdigest()`. -/
def hash_content (content_text : String) : String :=
  ⟨bytesToHex (sha256Bytes (utf8Encode content_text))⟩

/-! ## The version store

Rows are kept in insertion (rowid) order; `nextId` models the
AUTOINCREMENT counter.  SQLite compares `fetched_at` TEXT values with
the BINARY collation — byte-wise comparison of the UTF-8 encodings,
which coincides with code-point lexicographic order — and its scans of
the `(norma_id, fetched_at)` index order rows with equal `fetched_at`
by rowid (ascending for `ORDER BY ... ASC`, the exact reverse for
`ORDER BY ... DESC`), which the sort relations below reproduce. -/

/-- Code-point lexicographic comparison of strings (SQLite BINARY
collation on TEXT). -/
def lexLtCharsB : List Char → List Char → Bool
  | [], [] => false
  | [], _ :: _ => true
  | _ :: _, [] => false
  | a :: as, b :: bs =>
    if a.toNat < b.toNat then true
    else if b.toNat < a.toNat then false
    else lexLtCharsB as bs

/-- SQLite `<` on TEXT values. -/
def sqliteTextLt (s t : String) : Bool :=
  lexLtCharsB s.data t.data

/-- One row of the `norma_versions` table. -/
structure NormaVersion where
  id : Nat
  norma_id : String
  fetched_at : String
  source_url : String
  content_hash : String
  content_text : String
deriving DecidableEq

/-- Scan order of the `(norma_id, fetched_at)` index within one
`norma_id`: ascending `(fetched_at, rowid)`. -/
def rowKeyLe (v w : NormaVersion) : Prop :=
  sqliteTextLt v.fetched_at w.fetched_at = true ∨
    (v.fetched_at = w.fetched_at ∧ v.id ≤ w.id)

instance : DecidableRel rowKeyLe := fun v w =>
  inferInstanceAs (Decidable (sqliteTextLt v.fetched_at w.fetched_at = true ∨
    (v.fetched_at = w.fetched_at ∧ v.id ≤ w.id)))

/-- The reverse scan order used by `ORDER BY fetched_at DESC`. -/
def rowKeyGe (v w : NormaVersion) : Prop :=
  rowKeyLe w v

instance : DecidableRel rowKeyGe := fun v w =>
  inferInstanceAs (Decidable (rowKeyLe w v))

/-- `list_versions` from `app.py`:
`SELECT * FROM norma_versions WHERE norma_id = ? ORDER BY fetched_at ASC`. -/
def list_versions (rows : List NormaVersion) (norma_id : String) :
    List NormaVersion :=
  List.insertionSort rowKeyLe (rows.filter (fun v => v.norma_id == norma_id))

/-- `get_latest_version` from `app.py`:
`SELECT * FROM norma_versions WHERE norma_id = ? ORDER BY fetched_at DESC LIMIT 1`. -/
def get_latest_version (rows : List NormaVersion) (norma_id : String) :
    Option NormaVersion :=
  (List.insertionSort rowKeyGe
    (rows.filter (fun v => v.norma_id == norma_id))).head?

/-- The whole store: the table plus the AUTOINCREMENT counter. -/
structure Store where
  rows : List NormaVersion
  nextId : Nat
deriving DecidableEq

/-- `save_if_changed` from `app.py`.  The caller's clock reading
(`datetime.utcnow().isoformat(timespec="seconds") + "Z"`) is passed in
as `now`; the function returns the Python result pair together with
the updated store. -/
def save_if_changed (st : Store) (now norma_id source_url content_text : String) :
    (Bool × String) × Store :=
  let new_hash := hash_content content_text
  match get_latest_version st.rows norma_id with
  | some latest =>
    if latest.content_hash = new_hash then ((false, new_hash), st)
    else
      ((true, new_hash),
        ⟨st.rows ++
          [⟨st.nextId, norma_id, now, source_url, new_hash, content_text⟩],
         st.nextId + 1⟩)
  | none =>
    ((true, new_hash),
      ⟨st.rows ++
        [⟨st.nextId, norma_id, now, source_url, new_hash, content_text⟩],
       st.nextId + 1⟩)

/-- Stores reachable from the freshly initialised database by capture
calls. -/
inductive Reachable : Store → Prop
  | init : Reachable ⟨[], 1⟩
  | step (st : Store) (now norma_id source_url content_text : String) :
      Reachable st →
      Reachable (save_if_changed st now norma_id source_url content_text).2

/-- Ids already present are below the AUTOINCREMENT counter. -/
def StoreWF (st : Store) : Prop :=
  ∀ v ∈ st.rows, v.id < st.nextId

/-! ## difflib (Python 3.11), specialised to
`SequenceMatcher(None, a, b)` as used by `unified_diff`

`isjunk` is `None`, so `bjunk` is empty: the two junk-extension loops
of `find_longest_match` never fire and are omitted; `autojunk` is on,
so elements occurring more than `len(b)//100 + 1` times are dropped
from `b2j` when `len(b) >= 200`. -/

/-- The ascending list of positions of `x` in `b` (the `b2j` entry
before autojunk). -/
def occurrences (b : List String) (x : String) : List Nat :=
  (List.range b.length).filter (fun j => b.getD j "" == x)

/-- Is `x` "popular" (purged by autojunk)? -/
def isPopular (b : List String) (x : String) : Bool :=
  decide (200 ≤ b.length) &&
    decide (b.length / 100 + 1 < (occurrences b x).length)

/-- The `b2j` mapping after the autojunk purge. -/
def b2jList (b : List String) (x : String) : List Nat :=
  if isPopular b x then [] else occurrences b x

/-- The positions of `b` considered in the inner loop of
`find_longest_match` at outer index `i` (the `continue`/`break` range
test on an ascending list is a filter). -/
def validJs (a b : List String) (blo bhi i : Nat) : List Nat :=
  (b2jList b (a.getD i "")).filter (fun j => decide (blo ≤ j) && decide (j < bhi))

/-- `j2len` after `s` iterations of the outer loop (the Python dict,
as a total function that is `0` off its keys; `j2len.get(j-1, 0)` for
`j = 0` reads the absent key `-1`, hence the guard). -/
def jtabFn (a b : List String) (alo blo bhi : Nat) : Nat → Nat → Nat
  | 0, _ => 0
  | s + 1, j =>
    if j ∈ validJs a b blo bhi (alo + s) then
      (if j = 0 then 0 else jtabFn a b alo blo bhi s (j - 1)) + 1
    else 0

/-- A `Match` triple of `SequenceMatcher`. -/
structure DMatch where
  besti : Nat
  bestj : Nat
  size : Nat
deriving DecidableEq

/-- The inner loop of `find_longest_match` at outer index `i`:
fold the candidate `j`s over the running best.  `i - k + 1` and
`j - k + 1` are the Python values (the chain bounds proved below show
the natural subtraction never truncates). -/
def bestStep (prev : Nat → Nat) (i : Nat) (js : List Nat) (bst : DMatch) :
    DMatch :=
  js.foldl
    (fun bst j =>
      let k := (if j = 0 then 0 else prev (j - 1)) + 1
      if bst.size < k then ⟨i + 1 - k, j + 1 - k, k⟩ else bst)
    bst

/-- The running best after `s` iterations of the outer loop. -/
def bestAux (a b : List String) (alo blo bhi : Nat) : Nat → DMatch
  | 0 => ⟨alo, blo, 0⟩
  | s + 1 =>
    bestStep (jtabFn a b alo blo bhi s) (alo + s)
      (validJs a b blo bhi (alo + s)) (bestAux a b alo blo bhi s)

/-- The first extension loop (leftward by equal elements).  The fuel
`m.besti` bounds the loop: each step decreases `besti`, and the guard
`alo < besti` fails at the latest when `besti = 0`. -/
def extendLeftAux (a b : List String) (alo blo : Nat) : Nat → DMatch → DMatch
  | 0, m => m
  | fuel + 1, m =>
    if alo < m.besti ∧ blo < m.bestj ∧
        a.getD (m.besti - 1) "" = b.getD (m.bestj - 1) "" then
      extendLeftAux a b alo blo fuel ⟨m.besti - 1, m.bestj - 1, m.size + 1⟩
    else m

/-- The second extension loop (rightward by equal elements); fuel
`ahi` bounds it since the guard needs `besti + size < ahi`. -/
def extendRightAux (a b : List String) (ahi bhi : Nat) : Nat → DMatch → DMatch
  | 0, m => m
  | fuel + 1, m =>
    if m.besti + m.size < ahi ∧ m.bestj + m.size < bhi ∧
        a.getD (m.besti + m.size) "" = b.getD (m.bestj + m.size) "" then
      extendRightAux a b ahi bhi fuel ⟨m.besti, m.bestj, m.size + 1⟩
    else m

/-- `SequenceMatcher.find_longest_match` for `isjunk=None`. -/
def findLongestMatch (a b : List String) (alo ahi blo bhi : Nat) : DMatch :=
  let m0 := bestAux a b alo blo bhi (ahi - alo)
  let m1 := extendLeftAux a b alo blo m0.besti m0
  extendRightAux a b ahi bhi ahi m1

/-- The recursion of `get_matching_blocks` (the Python queue pops
subranges in depth-first order and sorts at the end; emitting
left part, match, right part in order yields the sorted list
directly).  The fuel `a.length + b.length + 1` dominates the recursion
depth, in which the sum of range lengths strictly decreases. -/
def matchingBlocksAux (a b : List String) :
    Nat → Nat → Nat → Nat → Nat → List DMatch
  | 0, _, _, _, _ => []
  | fuel + 1, alo, ahi, blo, bhi =>
    let m := findLongestMatch a b alo ahi blo bhi
    if m.size = 0 then []
    else
      (if alo < m.besti ∧ blo < m.bestj then
        matchingBlocksAux a b fuel alo m.besti blo m.bestj
      else []) ++
      m ::
        (if m.besti + m.size < ahi ∧ m.bestj + m.size < bhi then
          matchingBlocksAux a b fuel (m.besti + m.size) ahi
            (m.bestj + m.size) bhi
        else [])

/-- The adjacent-block collapse pass of `get_matching_blocks`. -/
def mergeAdjacent : Nat → Nat → Nat → List DMatch → List DMatch
  | i1, j1, k1, [] => if k1 = 0 then [] else [⟨i1, j1, k1⟩]
  | i1, j1, k1, m :: rest =>
    if i1 + k1 = m.besti ∧ j1 + k1 = m.bestj then
      mergeAdjacent i1 j1 (k1 + m.size) rest
    else
      (if k1 = 0 then [] else [⟨i1, j1, k1⟩]) ++
        mergeAdjacent m.besti m.bestj m.size rest

/-- `SequenceMatcher.get_matching_blocks`. -/
def get_matching_blocks (a b : List String) : List DMatch :=
  mergeAdjacent 0 0 0
    (matchingBlocksAux a b (a.length + b.length + 1) 0 a.length 0 b.length) ++
    [⟨a.length, b.length, 0⟩]

/-- Opcode tags of `get_opcodes`. -/
inductive DiffTag where
  | replace
  | delete
  | insert
  | equal
deriving DecidableEq

/-- A `(tag, i1, i2, j1, j2)` opcode. -/
structure Opcode where
  tag : DiffTag
  i1 : Nat
  i2 : Nat
  j1 : Nat
  j2 : Nat
deriving DecidableEq

/-- The scan of `get_opcodes` over the matching blocks. -/
def opcodesAux : Nat → Nat → List DMatch → List Opcode
  | _, _, [] => []
  | i, j, m :: rest =>
    (if i < m.besti ∧ j < m.bestj then [⟨.replace, i, m.besti, j, m.bestj⟩]
     else if i < m.besti then [⟨.delete, i, m.besti, j, m.bestj⟩]
     else if j < m.bestj then [⟨.insert, i, m.besti, j, m.bestj⟩]
     else []) ++
    (if m.size = 0 then []
     else [⟨.equal, m.besti, m.besti + m.size, m.bestj, m.bestj + m.size⟩]) ++
    opcodesAux (m.besti + m.size) (m.bestj + m.size) rest

/-- `SequenceMatcher.get_opcodes`. -/
def get_opcodes (a b : List String) : List Opcode :=
  opcodesAux 0 0 (get_matching_blocks a b)

/-- `get_grouped_opcodes`: trim of a leading `equal` opcode. -/
def trimFirstOpcode (n : Nat) : List Opcode → List Opcode
  | [] => []
  | c :: rest =>
    if c.tag = .equal then
      ⟨c.tag, max c.i1 (c.i2 - n), c.i2, max c.j1 (c.j2 - n), c.j2⟩ :: rest
    else c :: rest

/-- `get_grouped_opcodes`: trim of a trailing `equal` opcode. -/
def trimLastOpcode (n : Nat) : List Opcode → List Opcode
  | [] => []
  | [c] =>
    if c.tag = .equal then
      [⟨c.tag, c.i1, min c.i2 (c.i1 + n), c.j1, min c.j2 (c.j1 + n)⟩]
    else [c]
  | c :: rest => c :: trimLastOpcode n rest

/-- The group-splitting loop of `get_grouped_opcodes`. -/
def groupLoopAux (n : Nat) : List Opcode → List Opcode → List (List Opcode)
  | group, [] =>
    if group = [] then []
    else if group.length = 1 ∧ (group.headD ⟨.equal, 0, 0, 0, 0⟩).tag = .equal
      then []
    else [group]
  | group, c :: rest =>
    if c.tag = .equal ∧ 2 * n < c.i2 - c.i1 then
      (group ++ [⟨.equal, c.i1, min c.i2 (c.i1 + n), c.j1, min c.j2 (c.j1 + n)⟩]) ::
        groupLoopAux n
          [⟨.equal, max c.i1 (c.i2 - n), c.i2, max c.j1 (c.j2 - n), c.j2⟩]
          rest
    else groupLoopAux n (group ++ [c]) rest

/-- `SequenceMatcher.get_grouped_opcodes`. -/
def get_grouped_opcodes (n : Nat) (a b : List String) : List (List Opcode) :=
  let codes := get_opcodes a b
  let codes := if codes = [] then [⟨.equal, 0, 1, 0, 1⟩] else codes
  groupLoopAux n [] (trimLastOpcode n (trimFirstOpcode n codes))

/-- `difflib._format_range_unified`. -/
def formatRangeUnified (start stop : Nat) : String :=
  let beginning := start + 1
  let len := stop - start
  if len = 1 then Nat.repr beginning
  else Nat.repr (if len = 0 then beginning - 1 else beginning) ++ "," ++
    Nat.repr len

/-- Python slice `l[i:j]`. -/
def sliceList (l : List String) (i j : Nat) : List String :=
  (l.drop i).take (j - i)

/-- The body lines `unified_diff` yields for one opcode. -/
def opcodeLines (a b : List String) (op : Opcode) : List String :=
  match op.tag with
  | .equal => (sliceList a op.i1 op.i2).map (fun line => " " ++ line)
  | .delete => (sliceList a op.i1 op.i2).map (fun line => "-" ++ line)
  | .insert => (sliceList b op.j1 op.j2).map (fun line => "+" ++ line)
  | .replace =>
    (sliceList a op.i1 op.i2).map (fun line => "-" ++ line) ++
      (sliceList b op.j1 op.j2).map (fun line => "+" ++ line)

/-- The lines `unified_diff` yields for one group: the `@@` range line
followed by the opcode lines. -/
def groupLines (a b : List String) (g : List Opcode) : List String :=
  ("@@ -" ++
      formatRangeUnified (g.headD ⟨.equal, 0, 0, 0, 0⟩).i1
        (g.getLastD ⟨.equal, 0, 0, 0, 0⟩).i2 ++
    " +" ++
      formatRangeUnified (g.headD ⟨.equal, 0, 0, 0, 0⟩).j1
        (g.getLastD ⟨.equal, 0, 0, 0, 0⟩).j2 ++
    " @@") :: g.flatMap (opcodeLines a b)

/-- `difflib.unified_diff(a, b, fromfile="versión anterior",
tofile="versión nueva", lineterm="")`, collected into a list: the two
header lines are produced lazily before the first group. -/
def unifiedDiffLines (a b : List String) : List String :=
  let groups := get_grouped_opcodes 3 a b
  if groups = [] then []
  else
    "--- versión anterior" :: "+++ versión nueva" ::
      groups.flatMap (groupLines a b)

/-- `iter_changes` from `app.py`, collected into a list. -/
def iter_changes (old_text new_text : String) : List String :=
  (unifiedDiffLines (pySplitlines old_text) (pySplitlines new_text)).filter
    (fun line =>
      (pyStartswith line "+" || pyStartswith line "-") &&
        !(pyStartswith line "+++" || pyStartswith line "---"))

/-! ## Derived predicates used by the statements below -/

/-- A line in the canonical form guaranteed by the normalizer: longer
than two characters, every whitespace character is a single space, no
two adjacent spaces, and no leading or trailing whitespace (hence in
particular no newline). -/
def canonicalLine (l : String) : Prop :=
  2 < l.length ∧
  (∀ c ∈ l.data, pyIsSpace c = true → c = ' ') ∧
  List.Chain' (fun a b => ¬(a = ' ' ∧ b = ' ')) l.data ∧
  (∀ c, l.data.head? = some c → pyIsSpace c = false) ∧
  (∀ c, l.data.getLast? = some c → pyIsSpace c = false)

/-- A matching block is genuine: the two slices it names agree. -/
def GenuineMatch (a b : List String) (m : DMatch) : Prop :=
  ∀ t < m.size, a.getD (m.besti + t) "" = b.getD (m.bestj + t) ""

/-- The blocks advance monotonically from `(i, j)` and end within
`(hi, hj)`. -/
def ChainedIn : Nat → Nat → Nat → Nat → List DMatch → Prop
  | i, j, hi, hj, [] => i ≤ hi ∧ j ≤ hj
  | i, j, hi, hj, m :: rest =>
    i ≤ m.besti ∧ j ≤ m.bestj ∧
      ChainedIn (m.besti + m.size) (m.bestj + m.size) hi hj rest

/-- The `(i, j)` position after the `get_opcodes` scan of a block
list. -/
def scanEnd : Nat → Nat → List DMatch → Nat × Nat
  | i, j, [] => (i, j)
  | _, _, m :: rest => scanEnd (m.besti + m.size) (m.bestj + m.size) rest

/-! ## Theorems -/

/-! ### The SQLite text order -/

theorem lexLtCharsB_irrefl (l : List Char) : lexLtCharsB l l = false := by
  induction l with
  | nil => rfl
  | cons c t ih => simp [lexLtCharsB, ih]

theorem lexLtCharsB_asymm (l m : List Char) (h : lexLtCharsB l m = true) :
    lexLtCharsB m l = false := by
  induction l generalizing m with
  | nil =>
    cases m with
    | nil => simp [lexLtCharsB] at h
    | cons d u => simp [lexLtCharsB]
  | cons c t ih =>
    cases m with
    | nil => simp [lexLtCharsB] at h
    | cons d u =>
      by_cases h1 : c.toNat < d.toNat
      · have h2 : ¬ d.toNat < c.toNat := by omega
        simp [lexLtCharsB, h1, h2]
      · by_cases h2 : d.toNat < c.toNat
        · simp [lexLtCharsB, h1, h2] at h
        · simp [lexLtCharsB, h1, h2] at h ⊢
          exact ih u h

theorem lexLtCharsB_trans (l m r : List Char) (h1 : lexLtCharsB l m = true)
    (h2 : lexLtCharsB m r = true) : lexLtCharsB l r = true := by
  induction l generalizing m r with
  | nil =>
    cases m with
    | nil => simp [lexLtCharsB] at h1
    | cons d u =>
      cases r with
      | nil => simp [lexLtCharsB] at h2
      | cons e v => simp [lexLtCharsB]
  | cons c t ih =>
    cases m with
    | nil => simp [lexLtCharsB] at h1
    | cons d u =>
      cases r with
      | nil => simp [lexLtCharsB] at h2
      | cons e v =>
        by_cases hcd : c.toNat < d.toNat <;> by_cases hde : d.toNat < e.toNat
        · have : c.toNat < e.toNat := by omega
          simp [lexLtCharsB, this]
        · by_cases hed : e.toNat < d.toNat
          · simp [lexLtCharsB, hde, hed] at h2
          · have hde' : d.toNat = e.toNat := by omega
            have : c.toNat < e.toNat := by omega
            simp [lexLtCharsB, this]
        · by_cases hdc : d.toNat < c.toNat
          · simp [lexLtCharsB, hcd, hdc] at h1
          · have : c.toNat = d.toNat := by omega
            have hce : c.toNat < e.toNat := by omega
            simp [lexLtCharsB, hce]
        · by_cases hdc : d.toNat < c.toNat
          · simp [lexLtCharsB, hcd, hdc] at h1
          · by_cases hed : e.toNat < d.toNat
            · simp [lexLtCharsB, hde, hed] at h2
            · have hcd' : c.toNat = d.toNat := by omega
              have hde' : d.toNat = e.toNat := by omega
              have hce : ¬ c.toNat < e.toNat := by omega
              have hec : ¬ e.toNat < c.toNat := by omega
              simp [lexLtCharsB, hcd', hde', hce, hec] at h1 h2 ⊢
              exact ih u v h1 h2

theorem lexLtCharsB_antisymm (l m : List Char) (h1 : lexLtCharsB l m = false)
    (h2 : lexLtCharsB m l = false) : l = m := by
  induction l generalizing m with
  | nil =>
    cases m with
    | nil => rfl
    | cons d u => simp [lexLtCharsB] at h1
  | cons c t ih =>
    cases m with
    | nil => simp [lexLtCharsB] at h2
    | cons d u =>
      by_cases hcd : c.toNat < d.toNat
      · simp [lexLtCharsB, hcd] at h1
      · by_cases hdc : d.toNat < c.toNat
        · simp [lexLtCharsB, hdc] at h2
        · have hn : c.toNat = d.toNat := by omega
          have hc : c = d := Char.ext (UInt32.toNat.inj hn)
          subst hc
          simp [lexLtCharsB, hcd] at h1 h2
          rw [ih u h1 h2]

theorem sqliteTextLt_irrefl (s : String) : sqliteTextLt s s = false :=
  lexLtCharsB_irrefl s.data

theorem sqliteTextLt_asymm {s t : String} (h : sqliteTextLt s t = true) :
    sqliteTextLt t s = false :=
  lexLtCharsB_asymm s.data t.data h

theorem sqliteTextLt_trans {s t u : String} (h1 : sqliteTextLt s t = true)
    (h2 : sqliteTextLt t u = true) : sqliteTextLt s u = true :=
  lexLtCharsB_trans s.data t.data u.data h1 h2

theorem sqliteTextLt_antisymm {s t : String} (h1 : sqliteTextLt s t = false)
    (h2 : sqliteTextLt t s = false) : s = t := by
  cases s with
  | mk l =>
    cases t with
    | mk m => exact congrArg String.mk (lexLtCharsB_antisymm l m h1 h2)

instance : IsTrans NormaVersion rowKeyLe := by
  constructor
  intro v w x h1 h2
  rcases h1 with h1 | ⟨h1e, h1i⟩ <;> rcases h2 with h2 | ⟨h2e, h2i⟩
  · exact Or.inl (sqliteTextLt_trans h1 h2)
  · exact Or.inl (h2e ▸ h1)
  · exact Or.inl (h1e ▸ h2)
  · exact Or.inr ⟨h1e.trans h2e, le_trans h1i h2i⟩

instance : IsTotal NormaVersion rowKeyLe := by
  constructor
  intro v w
  by_cases h1 : sqliteTextLt v.fetched_at w.fetched_at = true
  · exact Or.inl (Or.inl h1)
  · by_cases h2 : sqliteTextLt w.fetched_at v.fetched_at = true
    · exact Or.inr (Or.inl h2)
    · have he : v.fetched_at = w.fetched_at :=
        sqliteTextLt_antisymm (Bool.eq_false_iff.mpr h1 |>.symm ▸ rfl)
          (Bool.eq_false_iff.mpr h2 |>.symm ▸ rfl)
      rcases Nat.le_total v.id w.id with h | h
      · exact Or.inl (Or.inr ⟨he, h⟩)
      · exact Or.inr (Or.inr ⟨he.symm, h⟩)

instance : IsTrans NormaVersion rowKeyGe := by
  constructor
  intro v w x h1 h2
  exact @IsTrans.trans _ rowKeyLe _ x w v h2 h1

instance : IsTotal NormaVersion rowKeyGe := by
  constructor
  intro v w
  rcases @IsTotal.total _ rowKeyLe _ v w with h | h
  · exact Or.inr h
  · exact Or.inl h

/-! ### C3: `get_latest_version` returns the row with the greatest
`(fetched_at, id)` key -/

/-- C3.  For every store content and identifier, `get_latest_version`
returns a stored row for that identifier that is greatest in the
`(fetched_at, id)` order — greatest `fetched_at` under SQLite's TEXT
comparison, ties broken by greatest `id` — and returns `none` exactly
when no row for the identifier exists. -/
theorem spec_C3 : ∀ (rows : List NormaVersion) (nid : String),
    (get_latest_version rows nid = none ↔
      rows.filter (fun v => v.norma_id == nid) = []) ∧
    (∀ v, get_latest_version rows nid = some v →
      v ∈ rows.filter (fun v => v.norma_id == nid) ∧
      ∀ w ∈ rows.filter (fun v => v.norma_id == nid),
        sqliteTextLt w.fetched_at v.fetched_at = true ∨
          (w.fetched_at = v.fetched_at ∧ w.id ≤ v.id)) := by
  intro rows nid
  have hperm :=
    List.perm_insertionSort rowKeyGe (rows.filter (fun v => v.norma_id == nid))
  have hsorted :=
    List.sorted_insertionSort rowKeyGe (rows.filter (fun v => v.norma_id == nid))
  constructor
  · constructor
    · intro h
      unfold get_latest_version at h
      cases hs : List.insertionSort rowKeyGe
          (rows.filter (fun v => v.norma_id == nid)) with
      | nil =>
        rw [hs] at hperm
        exact (hperm.symm.eq_nil)
      | cons a t => rw [hs] at h; simp at h
    · intro h
      unfold get_latest_version
      rw [h]
      rfl
  · intro v hv
    unfold get_latest_version at hv
    cases hs : List.insertionSort rowKeyGe
        (rows.filter (fun v => v.norma_id == nid)) with
    | nil => rw [hs] at hv; simp at hv
    | cons a t =>
      rw [hs] at hv
      simp at hv
      subst hv
      rw [hs] at hperm hsorted
      constructor
      · exact hperm.mem_iff.mp (List.mem_cons_self a t)
      · intro w hw
        have hw' : w ∈ a :: t := hperm.mem_iff.mpr hw
        rcases List.mem_cons.mp hw' with rfl | hw''
        · exact Or.inr ⟨rfl, Nat.le_refl _⟩
        · exact List.rel_of_sorted_cons hsorted w hw''

theorem spec_C3_witness :
    (⟨2, "n", "2021-01-01T00:00:00Z", "u", "h2", "b"⟩ : NormaVersion) ∈
      ([⟨1, "n", "2020-01-01T00:00:00Z", "u", "h1", "a"⟩,
        ⟨2, "n", "2021-01-01T00:00:00Z", "u", "h2", "b"⟩,
        ⟨3, "m", "2022-01-01T00:00:00Z", "u", "h3", "c"⟩] :
        List NormaVersion).filter (fun v => v.norma_id == "n") ∧
    (sqliteTextLt "2020-01-01T00:00:00Z" "2021-01-01T00:00:00Z" = true ∨
      ("2020-01-01T00:00:00Z" : String) = "2021-01-01T00:00:00Z" ∧ 1 ≤ 2) := by
  have h :=
    (spec_C3
      [⟨1, "n", "2020-01-01T00:00:00Z", "u", "h1", "a"⟩,
       ⟨2, "n", "2021-01-01T00:00:00Z", "u", "h2", "b"⟩,
       ⟨3, "m", "2022-01-01T00:00:00Z", "u", "h3", "c"⟩] "n").2
      ⟨2, "n", "2021-01-01T00:00:00Z", "u", "h2", "b"⟩ (by decide)
  exact ⟨h.1, h.2 ⟨1, "n", "2020-01-01T00:00:00Z", "u", "h1", "a"⟩ (by decide)⟩

/-! ### C4: ordering of `list_versions` -/

/-- C4 (amended).  For every store content, `list_versions` returns
exactly the rows of the identifier (a permutation of the filtered
table, empty exactly for an unknown identifier), sorted ascending by
`fetched_at` with ties broken by ascending `id`; when ids increase and
`fetched_at` values are non-decreasing along insertion order — as
appends with a monotone clock produce — the result is exactly the
filtered table in insertion order. -/
theorem spec_C4_amended : ∀ (rows : List NormaVersion) (nid : String),
    ((list_versions rows nid).Perm
        (rows.filter (fun v => v.norma_id == nid)) ∧
      List.Sorted rowKeyLe (list_versions rows nid) ∧
      (list_versions rows nid = [] ↔
        rows.filter (fun v => v.norma_id == nid) = [])) ∧
    (List.Pairwise (fun v w => v.id < w.id) rows →
      List.Pairwise
        (fun v w => sqliteTextLt w.fetched_at v.fetched_at = false) rows →
      list_versions rows nid = rows.filter (fun v => v.norma_id == nid)) := by
  intro rows nid
  have hperm :=
    List.perm_insertionSort rowKeyLe (rows.filter (fun v => v.norma_id == nid))
  refine ⟨⟨hperm, List.sorted_insertionSort rowKeyLe _, ?_⟩, ?_⟩
  · constructor
    · intro h
      unfold list_versions at h
      rw [h] at hperm
      exact hperm.symm.eq_nil
    · intro h
      unfold list_versions
      rw [h]
      rfl
  · intro h1 h2
    have hp : List.Pairwise rowKeyLe rows := by
      refine (h1.and h2).imp ?_
      intro v w ⟨hid, hfa⟩
      by_cases hlt : sqliteTextLt v.fetched_at w.fetched_at = true
      · exact Or.inl hlt
      · exact Or.inr ⟨sqliteTextLt_antisymm (Bool.not_eq_true _ ▸ hlt) hfa,
          Nat.le_of_lt hid⟩
    exact List.Sorted.insertionSort_eq (hp.filter _)

theorem spec_C4_counterexample :
    list_versions
        [⟨1, "n", "2021-06-01T00:00:00Z", "u", "h1", "a"⟩,
         ⟨2, "n", "2020-06-01T00:00:00Z", "u", "h2", "b"⟩] "n" ≠
      ([⟨1, "n", "2021-06-01T00:00:00Z", "u", "h1", "a"⟩,
        ⟨2, "n", "2020-06-01T00:00:00Z", "u", "h2", "b"⟩] :
        List NormaVersion).filter (fun v => v.norma_id == "n") := by
  decide

theorem spec_C4_witness :
    list_versions
        [⟨1, "n", "2020-06-01T00:00:00Z", "u", "h1", "a"⟩,
         ⟨2, "n", "2021-06-01T00:00:00Z", "u", "h2", "b"⟩] "n" =
      ([⟨1, "n", "2020-06-01T00:00:00Z", "u", "h1", "a"⟩,
        ⟨2, "n", "2021-06-01T00:00:00Z", "u", "h2", "b"⟩] :
        List NormaVersion).filter (fun v => v.norma_id == "n") := by
  exact (spec_C4_amended
    [⟨1, "n", "2020-06-01T00:00:00Z", "u", "h1", "a"⟩,
     ⟨2, "n", "2021-06-01T00:00:00Z", "u", "h2", "b"⟩] "n").2
    (by decide) (by decide)

/-! ### Helper: the head of the descending sort is a strict maximum -/

theorem head_sortGe_of_strict_max {l : List NormaVersion} {x : NormaVersion}
    (hx : x ∈ l)
    (hmax : ∀ y ∈ l, y = x ∨ (rowKeyLe y x ∧ ¬ rowKeyLe x y)) :
    (List.insertionSort rowKeyGe l).head? = some x := by
  have hperm := List.perm_insertionSort rowKeyGe l
  have hsorted := List.sorted_insertionSort rowKeyGe l
  cases hs : List.insertionSort rowKeyGe l with
  | nil =>
    rw [hs] at hperm
    exact absurd (hperm.mem_iff.mpr hx) (List.not_mem_nil x)
  | cons a t =>
    rw [hs] at hperm hsorted
    have ha : a ∈ l := hperm.mem_iff.mp (List.mem_cons_self a t)
    rcases hmax a ha with rfl | ⟨_, hnle⟩
    · rfl
    · have hx' : x ∈ a :: t := hperm.mem_iff.mpr hx
      rcases List.mem_cons.mp hx' with rfl | hx'' 
      · rfl
      · exact absurd (List.rel_of_sorted_cons hsorted x hx'') hnle

/-- After appending a row whose key strictly dominates every stored
row of the identifier, that row is the latest. -/
theorem get_latest_after_append (rows : List NormaVersion) (nid : String)
    (nr : NormaVersion) (hnid : (nr.norma_id == nid) = true)
    (hmax : ∀ v ∈ rows.filter (fun r => r.norma_id == nid),
      sqliteTextLt v.fetched_at nr.fetched_at = true ∨
        (v.fetched_at = nr.fetched_at ∧ v.id < nr.id)) :
    get_latest_version (rows ++ [nr]) nid = some nr := by
  unfold get_latest_version
  rw [List.filter_append]
  have hone : List.filter (fun v => v.norma_id == nid) [nr] = [nr] := by
    simp [hnid]
  rw [hone]
  apply head_sortGe_of_strict_max
  · exact List.mem_append_right _ (List.mem_cons_self nr [])
  · intro y hy
    rcases List.mem_append.mp hy with hy | hy
    · right
      rcases hmax y hy with hlt | ⟨heq, hid⟩
      · refine ⟨Or.inl hlt, ?_⟩
        intro hc
        rcases hc with hc | ⟨hce, _⟩
        · rw [sqliteTextLt_asymm hlt] at hc
          exact Bool.false_ne_true hc
        · rw [hce] at hlt
          rw [sqliteTextLt_irrefl] at hlt
          exact Bool.false_ne_true hlt
      · refine ⟨Or.inr ⟨heq, Nat.le_of_lt hid⟩, ?_⟩
        intro hc
        rcases hc with hc | ⟨_, hci⟩
        · rw [heq] at hc
          rw [sqliteTextLt_irrefl] at hc
          exact Bool.false_ne_true hc
        · omega
    · left
      simpa using hy

/-! ### C2: every stored row's hash is the fingerprint of its text -/

/-- C2.  In every store reachable by capture calls from the fresh
database, every row's `content_hash` equals `hash_content` of its
`content_text`: the hash is computed inside the append path and never
taken from the caller. -/
theorem spec_C2 : ∀ st : Store, Reachable st →
    ∀ v ∈ st.rows, v.content_hash = hash_content v.content_text := by
  intro st hst
  induction hst with
  | init => intro v hv; exact absurd hv (List.not_mem_nil v)
  | step st now nid url txt _ ih =>
    intro v hv
    unfold save_if_changed at hv
    cases hl : get_latest_version st.rows nid with
    | none =>
      rw [hl] at hv
      simp only at hv
      rcases List.mem_append.mp hv with hv | hv
      · exact ih v hv
      · simp at hv
        subst hv
        rfl
    | some latest =>
      rw [hl] at hv
      simp only at hv
      by_cases hc : latest.content_hash = hash_content txt
      · rw [if_pos hc] at hv
        exact ih v hv
      · rw [if_neg hc] at hv
        rcases List.mem_append.mp hv with hv | hv
        · exact ih v hv
        · simp at hv
          subst hv
          rfl

theorem spec_C2_witness :
    (⟨1, "LEY-1", "2024-05-01T00:00:00Z", "u", hash_content "Art 1.",
        "Art 1."⟩ : NormaVersion).content_hash =
      hash_content
        (⟨1, "LEY-1", "2024-05-01T00:00:00Z", "u", hash_content "Art 1.",
          "Art 1."⟩ : NormaVersion).content_text := by
  exact spec_C2
    (save_if_changed ⟨[], 1⟩ "2024-05-01T00:00:00Z" "LEY-1" "u" "Art 1.").2
    (Reachable.step _ _ _ _ _ Reachable.init)
    ⟨1, "LEY-1", "2024-05-01T00:00:00Z", "u", hash_content "Art 1.", "Art 1."⟩
    (by
      show _ ∈ ([] : List NormaVersion) ++ [_]
      simp)

/-! ### C8: the unchanged check compares only the latest version -/

/-- C8.  Whenever the latest stored version's hash differs from the
fingerprint of the new text, `save_if_changed` appends a new row and
returns `changed = true` — regardless of any older stored version
(whose hash may equal the new fingerprint). -/
theorem spec_C8 : ∀ (st : Store) (now nid url txt : String) (v : NormaVersion),
    get_latest_version st.rows nid = some v →
    v.content_hash ≠ hash_content txt →
    save_if_changed st now nid url txt =
      ((true, hash_content txt),
        ⟨st.rows ++ [⟨st.nextId, nid, now, url, hash_content txt, txt⟩],
         st.nextId + 1⟩) := by
  intro st now nid url txt v hv hne
  unfold save_if_changed
  rw [hv]
  simp only
  rw [if_neg hne]

set_option maxRecDepth 40000 in
theorem spec_C8_witness :
    save_if_changed
        ⟨[⟨1, "n", "2020-01-01T00:00:00Z", "u", hash_content "texto A",
            "texto A"⟩,
          ⟨2, "n", "2021-01-01T00:00:00Z", "u", hash_content "texto B",
            "texto B"⟩], 3⟩
        "2022-01-01T00:00:00Z" "n" "u" "texto A" =
      ((true, hash_content "texto A"),
        ⟨[⟨1, "n", "2020-01-01T00:00:00Z", "u", hash_content "texto A",
             "texto A"⟩,
          ⟨2, "n", "2021-01-01T00:00:00Z", "u", hash_content "texto B",
             "texto B"⟩,
          ⟨3, "n", "2022-01-01T00:00:00Z", "u", hash_content "texto A",
             "texto A"⟩], 4⟩) := by
  exact spec_C8 _ "2022-01-01T00:00:00Z" "n" "u" "texto A"
    ⟨2, "n", "2021-01-01T00:00:00Z", "u", hash_content "texto B", "texto B"⟩
    (by decide) (by decide)

/-! ### C1: idempotent capture -/

/-- C1 (amended).  (i) If the latest stored version for the identifier
has the hash of the supplied text, `save_if_changed` returns
`(false, newHash)` and leaves the store unchanged.  (ii) With an empty
history for the identifier, a call always appends a row and returns
`(true, newHash)`.  (iii) Two consecutive calls with identical text
append at most one row in total; exactly one when the history was
empty or the latest hash differed — given well-formed ids and a first
timestamp not earlier than any stored `fetched_at` of the
identifier. -/
theorem spec_C1_amended :
    (∀ (st : Store) (now nid url txt : String) (v : NormaVersion),
      get_latest_version st.rows nid = some v →
      v.content_hash = hash_content txt →
      save_if_changed st now nid url txt = ((false, hash_content txt), st)) ∧
    (∀ (st : Store) (now nid url txt : String),
      st.rows.filter (fun r => r.norma_id == nid) = [] →
      save_if_changed st now nid url txt =
        ((true, hash_content txt),
          ⟨st.rows ++ [⟨st.nextId, nid, now, url, hash_content txt, txt⟩],
           st.nextId + 1⟩)) ∧
    (∀ (st : Store) (now₁ now₂ nid url₁ url₂ txt : String),
      StoreWF st →
      (∀ v ∈ st.rows.filter (fun r => r.norma_id == nid),
        sqliteTextLt now₁ v.fetched_at = false) →
      (save_if_changed (save_if_changed st now₁ nid url₁ txt).2 now₂ nid url₂
          txt).2.rows.length ≤ st.rows.length + 1 ∧
      ((∀ v, get_latest_version st.rows nid = some v →
          v.content_hash ≠ hash_content txt) →
        (save_if_changed (save_if_changed st now₁ nid url₁ txt).2 now₂ nid
            url₂ txt).2.rows.length = st.rows.length + 1)) := by
  have hnoop : ∀ (st : Store) (now nid url txt : String) (v : NormaVersion),
      get_latest_version st.rows nid = some v →
      v.content_hash = hash_content txt →
      save_if_changed st now nid url txt = ((false, hash_content txt), st) := by
    intro st now nid url txt v hv hh
    unfold save_if_changed
    rw [hv]
    simp only
    rw [if_pos hh]
  have hempty : ∀ (st : Store) (now nid url txt : String),
      st.rows.filter (fun r => r.norma_id == nid) = [] →
      save_if_changed st now nid url txt =
        ((true, hash_content txt),
          ⟨st.rows ++ [⟨st.nextId, nid, now, url, hash_content txt, txt⟩],
           st.nextId + 1⟩) := by
    intro st now nid url txt hf
    have hnone : get_latest_version st.rows nid = none := by
      unfold get_latest_version
      rw [hf]
      rfl
    unfold save_if_changed
    rw [hnone]
  refine ⟨hnoop, hempty, ?_⟩
  intro st now₁ now₂ nid url₁ url₂ txt hwf hclock
  by_cases hfirst : ∃ v, get_latest_version st.rows nid = some v ∧
      v.content_hash = hash_content txt
  · rcases hfirst with ⟨v, hv, hh⟩
    rw [hnoop st now₁ nid url₁ txt v hv hh]
    rw [hnoop st now₂ nid url₂ txt v hv hh]
    constructor
    · exact Nat.le_succ _
    · intro hall
      exact absurd hh (hall v hv)
  · -- the first call appends
    have happend : (save_if_changed st now₁ nid url₁ txt).2 =
        ⟨st.rows ++ [⟨st.nextId, nid, now₁, url₁, hash_content txt, txt⟩],
         st.nextId + 1⟩ := by
      unfold save_if_changed
      cases hl : get_latest_version st.rows nid with
      | none => rfl
      | some latest =>
        simp only
        rw [if_neg (fun hc => hfirst ⟨latest, hl, hc⟩)]
    have hlatest2 : get_latest_version
        (st.rows ++ [⟨st.nextId, nid, now₁, url₁, hash_content txt, txt⟩])
        nid = some ⟨st.nextId, nid, now₁, url₁, hash_content txt, txt⟩ := by
      apply get_latest_after_append
      · exact beq_self_eq_true _
      · intro v hv
        have hvrows : v ∈ st.rows := List.mem_of_mem_filter hv
        have hid : v.id < st.nextId := hwf v hvrows
        have hcl := hclock v hv
        by_cases hlt : sqliteTextLt v.fetched_at now₁ = true
        · exact Or.inl hlt
        · exact Or.inr ⟨sqliteTextLt_antisymm (Bool.not_eq_true _ ▸ hlt) hcl,
            hid⟩
    have hsecond := hnoop (save_if_changed st now₁ nid url₁ txt).2 now₂ nid
      url₂ txt ⟨st.nextId, nid, now₁, url₁, hash_content txt, txt⟩
      (by rw [happend]; exact hlatest2) rfl
    rw [hsecond, happend]
    constructor
    · simp
    · intro _
      simp

theorem spec_C1_counterexample :
    (save_if_changed (save_if_changed
          ⟨[⟨1, "n", "2024-01-01T00:00:00Z", "u", hash_content "t", "t"⟩], 2⟩
          "2024-01-02T00:00:00Z" "n" "u" "t").2
        "2024-01-03T00:00:00Z" "n" "u" "t").2.rows.length ≠
      (⟨[⟨1, "n", "2024-01-01T00:00:00Z", "u", hash_content "t", "t"⟩], 2⟩ :
          Store).rows.length + 1 := by
  have hlatest : get_latest_version
      [⟨1, "n", "2024-01-01T00:00:00Z", "u", hash_content "t", "t"⟩] "n" =
      some ⟨1, "n", "2024-01-01T00:00:00Z", "u", hash_content "t", "t"⟩ := rfl
  have h1 : ∀ now url,
      save_if_changed
        ⟨[⟨1, "n", "2024-01-01T00:00:00Z", "u", hash_content "t", "t"⟩], 2⟩
        now "n" url "t" =
      ((false, hash_content "t"),
        ⟨[⟨1, "n", "2024-01-01T00:00:00Z", "u", hash_content "t", "t"⟩], 2⟩) := by
    intro now url
    unfold save_if_changed
    rw [hlatest]
    simp
  rw [h1, h1]
  simp

theorem spec_C1_witness :
    (save_if_changed (save_if_changed ⟨[], 1⟩ "2024-05-01T00:00:00Z" "LEY-1"
          "u" "Art 1.").2 "2024-05-02T00:00:00Z" "LEY-1" "u"
        "Art 1.").2.rows.length = 1 := by
  have h := (spec_C1_amended.2.2 ⟨[], 1⟩ "2024-05-01T00:00:00Z"
    "2024-05-02T00:00:00Z" "LEY-1" "u" "u" "Art 1."
    (fun v hv => absurd hv (List.not_mem_nil v))
    (fun v hv => absurd hv (List.not_mem_nil v))).2
  exact h (fun v hv => Option.noConfusion hv)

/-! ### C7: the fingerprint -/

theorem sha256Bytes_length (msg : List Nat) : (sha256Bytes msg).length = 32 := by
  simp [sha256Bytes, wordBytes]

theorem bytesToHex_length (l : List Nat) :
    (bytesToHex l).length = 2 * l.length := by
  induction l with
  | nil => rfl
  | cons b t ih =>
    unfold bytesToHex at ih ⊢
    rw [List.flatMap_cons, List.length_append, ih]
    simp
    omega

theorem hexDigit_mem (n : Nat) : hexDigit n ∈ "0123456789abcdef".data := by
  unfold hexDigit
  rcases Nat.lt_or_ge n 16 with h | h
  · interval_cases n <;> decide
  · rw [List.getD_eq_default]
    · decide
    · show ("0123456789abcdef".data).length ≤ n
      have : ("0123456789abcdef".data).length = 16 := by decide
      omega

theorem bytesToHex_mem (l : List Nat) (c : Char) (hc : c ∈ bytesToHex l) :
    c ∈ "0123456789abcdef".data := by
  induction l with
  | nil => simp [bytesToHex] at hc
  | cons b t ih =>
    unfold bytesToHex at hc
    rw [List.flatMap_cons] at hc
    rcases List.mem_append.mp hc with h | h
    · rcases List.mem_cons.mp h with rfl | h
      · exact hexDigit_mem _
      · rcases List.mem_cons.mp h with rfl | h
        · exact hexDigit_mem _
        · exact absurd h (List.not_mem_nil c)
    · exact ih h

set_option maxRecDepth 40000 in
/-- C7.  `hash_content` renders the 256-bit SHA-256 digest of the
UTF-8 encoding of the text as 64 lowercase hexadecimal characters; it
is a pure function (equal across calls with the same text), and it
agrees with the standard SHA-256 test vectors. -/
theorem spec_C7 :
    (∀ s t : String, s = t → hash_content s = hash_content t) ∧
    (∀ t : String, (hash_content t).length = 64 ∧
      ∀ c ∈ (hash_content t).data, c ∈ "0123456789abcdef".data) ∧
    hash_content "" =
      "e3b0c44298fc1c149afbf4c8996fb92427ae41e4649b934ca495991b7852b855" ∧
    hash_content "abc" =
      "ba7816bf8f01cfea414140de5dae2223b00361a396177a9cb410ff61f20015ad" := by
  refine ⟨fun s t h => h ▸ rfl, fun t => ⟨?_, ?_⟩, by decide, by decide⟩
  · show (bytesToHex (sha256Bytes (utf8Encode t))).length = 64
    have h1 := bytesToHex_length (sha256Bytes (utf8Encode t))
    have h2 := sha256Bytes_length (utf8Encode t)
    omega
  · intro c hc
    exact bytesToHex_mem _ c hc

set_option maxRecDepth 40000 in
theorem spec_C7_witness :
    hash_content "a" = hash_content "a" ∧
    'b' ∈ "0123456789abcdef".data := by
  exact ⟨spec_C7.1 "a" "a" rfl, (spec_C7.2.1 "abc").2 'b' (by decide)⟩

/-! ### C9: the summary filter drops marker-colliding change lines -/

theorem pyStartswith_cons (c : Char) (s pre : String) :
    pyStartswith (⟨[c]⟩ ++ s) ⟨c :: pre.data⟩ = pyStartswith s pre := by
  unfold pyStartswith
  rw [String.data_append]
  show List.isPrefixOf (c :: pre.data) (c :: s.data) = _
  simp [List.isPrefixOf]

/-- C9.  For any pair of texts, an added line whose own content starts
with `++` is rendered as a unified-diff line starting with `+++`, and
the `iter_changes` filter drops it (symmetrically for removed lines
starting with `--` rendered as `---`): such changes produce no entry
in the summary. -/
theorem spec_C9 : ∀ (old_text new_text s : String),
    (pyStartswith s "++" = true →
      pyStartswith ("+" ++ s) "+++" = true ∧
        ("+" ++ s) ∉ iter_changes old_text new_text) ∧
    (pyStartswith s "--" = true →
      pyStartswith ("-" ++ s) "---" = true ∧
        ("-" ++ s) ∉ iter_changes old_text new_text) := by
  intro old_text new_text s
  have hplus : pyStartswith ("+" ++ s) "+++" = pyStartswith s "++" :=
    pyStartswith_cons '+' s "++"
  have hminus : pyStartswith ("-" ++ s) "---" = pyStartswith s "--" :=
    pyStartswith_cons '-' s "--"
  constructor
  · intro h
    refine ⟨hplus.trans h, ?_⟩
    intro hmem
    have hp := (List.mem_filter.mp hmem).2
    rw [hplus.trans h] at hp
    simp at hp
  · intro h
    refine ⟨hminus.trans h, ?_⟩
    intro hmem
    have hp := (List.mem_filter.mp hmem).2
    rw [hminus.trans h] at hp
    simp at hp

theorem spec_C9_witness :
    pyStartswith "++x" "++" = true ∧
    pyStartswith ("+" ++ "++x") "+++" = true ∧
    ("+" ++ "++x") ∉ iter_changes "x" "++x" := by
  have h := (spec_C9 "x" "++x" "++x").1 (by decide)
  exact ⟨by decide, h.1, h.2⟩

/-! ### C10: canonical form of normalizer output lines -/

theorem collapseWs_space_eq (l : List Char) : ∀ (p : Bool),
    ∀ c ∈ collapseWsAux p l, pyIsSpace c = true → c = ' ' := by
  induction l with
  | nil => intro p c hc; simp [collapseWsAux] at hc
  | cons d t ih =>
    intro p c hc hsp
    unfold collapseWsAux at hc
    by_cases hd : pyIsSpace d
    · rw [if_pos hd] at hc
      cases p with
      | true =>
        simp only [if_pos rfl] at hc
        exact ih true c hc hsp
      | false =>
        simp only [Bool.false_eq_true, if_neg] at hc
        rcases List.mem_cons.mp hc with rfl | hc
        · rfl
        · exact ih true c hc hsp
    · rw [if_neg hd] at hc
      rcases List.mem_cons.mp hc with rfl | hc
      · exact absurd hsp (by simpa using hd)
      · exact ih false c hc hsp

theorem collapseWs_head_true (l : List Char) :
    ∀ c, (collapseWsAux true l).head? = some c → pyIsSpace c = false := by
  induction l with
  | nil => intro c hc; simp [collapseWsAux] at hc
  | cons d t ih =>
    intro c hc
    unfold collapseWsAux at hc
    by_cases hd : pyIsSpace d
    · rw [if_pos hd] at hc
      simp only [if_pos rfl] at hc
      exact ih c hc
    · rw [if_neg hd] at hc
      simp only [List.head?_cons, Option.some.injEq] at hc
      subst hc
      simpa using hd

theorem collapseWs_chain (l : List Char) : ∀ (p : Bool),
    List.Chain' (fun a b => ¬(a = ' ' ∧ b = ' ')) (collapseWsAux p l) := by
  induction l with
  | nil => intro p; simp [collapseWsAux]
  | cons d t ih =>
    intro p
    unfold collapseWsAux
    by_cases hd : pyIsSpace d
    · rw [if_pos hd]
      cases p with
      | true =>
        simp only [if_pos rfl]
        exact ih true
      | false =>
        simp only [Bool.false_eq_true, if_false]
        rw [List.chain'_cons']
        refine ⟨?_, ih true⟩
        intro y hy
        intro ⟨_, hy'⟩
        have := collapseWs_head_true t y hy
        rw [hy'] at this
        simp [pyIsSpace] at this
    · rw [if_neg hd]
      rw [List.chain'_cons']
      refine ⟨?_, ih false⟩
      intro y hy
      intro ⟨hd', _⟩
      rw [hd'] at hd
      simp [pyIsSpace] at hd

theorem head_dropWhile_false (p : Char → Bool) (l : List Char) :
    ∀ c, ((l.dropWhile p).head? = some c) → p c = false := by
  induction l with
  | nil => intro c hc; simp at hc
  | cons d t ih =>
    intro c hc
    rw [List.dropWhile_cons] at hc
    by_cases hd : p d
    · rw [if_pos hd] at hc
      exact ih c hc
    · rw [if_neg hd] at hc
      simp at hc
      subst hc
      simpa using hd

theorem pyStrip_within (l : List Char) : pyStrip l <:+: l := by
  unfold pyStrip
  have h1 : l.dropWhile pyIsSpace <:+ l := List.dropWhile_suffix _
  have h2 : (l.dropWhile pyIsSpace).reverse.dropWhile pyIsSpace <:+
      (l.dropWhile pyIsSpace).reverse := List.dropWhile_suffix _
  have h3 : ((l.dropWhile pyIsSpace).reverse.dropWhile pyIsSpace).reverse <+:
      (l.dropWhile pyIsSpace).reverse.reverse :=
    List.reverse_prefix.mpr h2
  rw [List.reverse_reverse] at h3
  exact h3.isInfix.trans h1.isInfix

theorem pyStrip_head (l : List Char) :
    ∀ c, (pyStrip l).head? = some c → pyIsSpace c = false := by
  intro c hc
  unfold pyStrip at hc
  set m := l.dropWhile pyIsSpace with hm
  have hpre : (m.reverse.dropWhile pyIsSpace).reverse <+: m := by
    have h := List.reverse_prefix.mpr
      (@List.dropWhile_suffix _ m.reverse pyIsSpace)
    rwa [List.reverse_reverse] at h
  rcases hpre with ⟨t, ht⟩
  have hne : (m.reverse.dropWhile pyIsSpace).reverse ≠ [] := by
    intro h
    rw [h] at hc
    simp at hc
  have : m.head? = some c := by
    rw [← ht, List.head?_append_of_ne_nil _ hne, hc]
  exact head_dropWhile_false pyIsSpace l c this

theorem pyStrip_last (l : List Char) :
    ∀ c, (pyStrip l).getLast? = some c → pyIsSpace c = false := by
  intro c hc
  unfold pyStrip at hc
  rw [List.getLast?_reverse] at hc
  exact head_dropWhile_false pyIsSpace _ c hc

theorem normalize_text_mem (s : String) :
    ∀ c ∈ (normalize_text s).data, pyIsSpace c = true → c = ' ' := by
  intro c hc
  have : c ∈ reSubWsToSpace s.data := (pyStrip_within _).subset hc
  exact collapseWs_space_eq s.data false c this

theorem normalize_text_chain (s : String) :
    List.Chain' (fun a b => ¬(a = ' ' ∧ b = ' ')) (normalize_text s).data := by
  exact List.Chain'.infix (collapseWs_chain s.data false) (pyStrip_within _)

/-- C10.  Every line the normalizer keeps is canonical: longer than
two characters, no leading or trailing whitespace, its only whitespace
characters are single interior spaces (in particular it contains no
newline and no run of two or more whitespace characters). -/
theorem spec_C10 : ∀ html : String, ∀ line ∈ extractLines html,
    canonicalLine line := by
  intro html line hline
  unfold extractLines at hline
  have hf := List.mem_filter.mp hline
  rcases List.mem_map.mp hf.1 with ⟨raw, _, hraw⟩
  subst hraw
  refine ⟨by simpa using hf.2, normalize_text_mem raw, normalize_text_chain raw,
    pyStrip_head _, pyStrip_last _⟩

theorem spec_C10_witness :
    canonicalLine "Hello world" := by
  exact spec_C10 "<p>Hello   world</p>" "Hello world" (by decide)

/-! ### C6: the normalization example -/

set_option maxRecDepth 40000 in
theorem spec_C6_counterexample :
    extract_norma_text
        "<p>Hello   world</p>\n<script>ignore()</script>\n<p>ok</p>" ≠
      "Hello world\nok" := by
  decide

set_option maxRecDepth 40000 in
/-- C6 (amended).  The normalizer removes script/style/nav/footer/
header regions, collapses each whitespace run within a line to one
space, trims the line, drops every line whose trimmed length is ≤ 2
characters, and joins the survivors with single newlines; on the
spec's example input it yields `"Hello world"` — the two-character
line `"ok"` is dropped by the `> 2` threshold. -/
theorem spec_C6_amended :
    extract_norma_text
        "<p>Hello   world</p>\n<script>ignore()</script>\n<p>ok</p>" =
      "Hello world" := by
  decide

/-! ### C5: the diff engine -/

theorem jtab_zero (a b : List String) (alo blo bhi j : Nat) :
    jtabFn a b alo blo bhi 0 j = 0 := rfl

theorem jtab_succ (a b : List String) (alo blo bhi s j : Nat) :
    jtabFn a b alo blo bhi (s + 1) j =
      if j ∈ validJs a b blo bhi (alo + s) then
        (if j = 0 then 0 else jtabFn a b alo blo bhi s (j - 1)) + 1
      else 0 := rfl

theorem mem_validJs {a b : List String} {blo bhi i j : Nat} :
    j ∈ validJs a b blo bhi i ↔
      isPopular b (a.getD i "") = false ∧ b.getD j "" = a.getD i "" ∧
        j < b.length ∧ blo ≤ j ∧ j < bhi := by
  unfold validJs b2jList occurrences
  by_cases hp : isPopular b (a.getD i "") = true
  · rw [if_pos hp, List.filter_nil]
    constructor
    · intro h
      exact absurd h (List.not_mem_nil j)
    · rintro ⟨h1, -⟩
      rw [hp] at h1
      cases h1
  · have hp' : isPopular b (a.getD i "") = false := by
      revert hp
      cases isPopular b (a.getD i "") <;> simp
    rw [if_neg hp]
    rw [List.mem_filter, List.mem_filter]
    constructor
    · rintro ⟨⟨hr, hbeq⟩, hcond⟩
      rw [Bool.and_eq_true, decide_eq_true_eq, decide_eq_true_eq] at hcond
      exact ⟨hp', beq_iff_eq.mp hbeq, List.mem_range.mp hr, hcond.1, hcond.2⟩
    · rintro ⟨-, hval, hlen, hblo, hbhi⟩
      refine ⟨⟨List.mem_range.mpr hlen, beq_iff_eq.mpr hval⟩, ?_⟩
      rw [Bool.and_eq_true, decide_eq_true_eq, decide_eq_true_eq]
      exact ⟨hblo, hbhi⟩

theorem jtab_le {a b : List String} {alo blo bhi : Nat} :
    ∀ s j, jtabFn a b alo blo bhi s j ≤ s := by
  intro s
  induction s with
  | zero => intro j; rw [jtab_zero]
  | succ s ih =>
    intro j
    rw [jtab_succ]
    by_cases h : j ∈ validJs a b blo bhi (alo + s)
    · rw [if_pos h]
      by_cases hj : j = 0
      · simp [hj]
      · rw [if_neg hj]
        have := ih (j - 1)
        omega
    · rw [if_neg h]
      omega

/-! The diagonal argument for identical sequences: with `a = b` and
the full symmetric range, every chain value is dominated by the
diagonal chain, so the running best stays on the diagonal. -/

theorem validJs_self_diag {a : List String} {s j : Nat}
    (h : j ∈ validJs a a 0 a.length s) : j ∈ validJs a a 0 a.length j := by
  rcases mem_validJs.mp h with ⟨hpop, hval, hlen, -, hhi⟩
  have hpop' : isPopular a (a.getD j "") = false := by
    rw [hval]
    exact hpop
  exact mem_validJs.mpr ⟨hpop', rfl, hlen, Nat.zero_le _, hhi⟩

theorem validJs_self_of_mem {a : List String} {s j : Nat}
    (hs : s < a.length) (h : j ∈ validJs a a 0 a.length s) :
    s ∈ validJs a a 0 a.length s := by
  rcases mem_validJs.mp h with ⟨hpop, -, -, -, -⟩
  exact mem_validJs.mpr ⟨hpop, rfl, hs, Nat.zero_le _, hs⟩

theorem jtab_diag_dom {a : List String} :
    ∀ s j, s < a.length →
      jtabFn a a 0 0 a.length (s + 1) j ≤
        jtabFn a a 0 0 a.length (s + 1) s := by
  intro s
  induction s with
  | zero =>
    intro j h0
    rw [jtab_succ a a 0 0 a.length 0 j, jtab_succ a a 0 0 a.length 0 0]
    simp only [Nat.zero_add]
    by_cases hj : j ∈ validJs a a 0 a.length 0
    · have hs0 : (0 : Nat) ∈ validJs a a 0 a.length 0 :=
        validJs_self_of_mem h0 hj
      rw [if_pos hj, if_pos hs0]
      by_cases h : j = 0 <;> simp [h, jtab_zero]
    · rw [if_neg hj]
      omega
  | succ s ih =>
    intro j hs
    rw [jtab_succ a a 0 0 a.length (s + 1) j,
      jtab_succ a a 0 0 a.length (s + 1) (s + 1)]
    simp only [Nat.zero_add]
    by_cases hj : j ∈ validJs a a 0 a.length (s + 1)
    · have hss : (s + 1) ∈ validJs a a 0 a.length (s + 1) :=
        validJs_self_of_mem hs hj
      rw [if_pos hj, if_pos hss]
      rw [if_neg (Nat.succ_ne_zero s)]
      simp only [Nat.add_sub_cancel]
      by_cases hj0 : j = 0
      · simp [hj0]
      · rw [if_neg hj0]
        have h1 := ih (j - 1) (by omega)
        omega
    · rw [if_neg hj]
      omega

theorem jtab_diag_later {a : List String} :
    ∀ s j, jtabFn a a 0 0 a.length s j ≤
      jtabFn a a 0 0 a.length (j + 1) j := by
  intro s
  induction s with
  | zero => intro j; rw [jtab_zero]; omega
  | succ s ih =>
    intro j
    rw [jtab_succ a a 0 0 a.length s j, jtab_succ a a 0 0 a.length j j]
    simp only [Nat.zero_add]
    by_cases hj : j ∈ validJs a a 0 a.length s
    · have hjj : j ∈ validJs a a 0 a.length j := validJs_self_diag hj
      rw [if_pos hj, if_pos hjj]
      by_cases hj0 : j = 0
      · simp [hj0]
      · rw [if_neg hj0, if_neg hj0]
        have h1 := ih (j - 1)
        rw [show j - 1 + 1 = j from by omega] at h1
        omega
    · rw [if_neg hj]
      omega

theorem bestStep_nil (prev : Nat → Nat) (i : Nat) (bst : DMatch) :
    bestStep prev i [] bst = bst := rfl

theorem bestStep_cons (prev : Nat → Nat) (i j : Nat) (js : List Nat)
    (bst : DMatch) :
    bestStep prev i (j :: js) bst =
      bestStep prev i js
        (if bst.size < (if j = 0 then 0 else prev (j - 1)) + 1 then
          ⟨i + 1 - ((if j = 0 then 0 else prev (j - 1)) + 1),
           j + 1 - ((if j = 0 then 0 else prev (j - 1)) + 1),
           (if j = 0 then 0 else prev (j - 1)) + 1⟩
        else bst) := rfl

theorem validJs_pairwise (a b : List String) (blo bhi i : Nat) :
    List.Pairwise (· < ·) (validJs a b blo bhi i) := by
  unfold validJs b2jList occurrences
  by_cases hp : isPopular b (a.getD i "") = true
  · rw [if_pos hp]
    simp
  · rw [if_neg hp]
    exact ((List.pairwise_lt_range _).filter _).filter _

theorem jtab_succ_mem {a b : List String} {alo blo bhi s j : Nat}
    (h : j ∈ validJs a b blo bhi (alo + s)) :
    jtabFn a b alo blo bhi (s + 1) j =
      (if j = 0 then 0 else jtabFn a b alo blo bhi s (j - 1)) + 1 := by
  rw [jtab_succ, if_pos h]

theorem jtab_succ_notmem {a b : List String} {alo blo bhi s j : Nat}
    (h : j ∉ validJs a b blo bhi (alo + s)) :
    jtabFn a b alo blo bhi (s + 1) j = 0 := by
  rw [jtab_succ, if_neg h]

theorem jtab_succ_mem0 {a : List String} {s j : Nat}
    (h : j ∈ validJs a a 0 a.length s) :
    jtabFn a a 0 0 a.length (s + 1) j =
      (if j = 0 then 0 else jtabFn a a 0 0 a.length s (j - 1)) + 1 := by
  apply @jtab_succ_mem a a 0 0 a.length s j
  rw [Nat.zero_add]
  exact h

theorem jtab_succ_notmem0 {a : List String} {s j : Nat}
    (h : j ∉ validJs a a 0 a.length s) :
    jtabFn a a 0 0 a.length (s + 1) j = 0 := by
  apply @jtab_succ_notmem a a 0 0 a.length s j
  rw [Nat.zero_add]
  exact h

theorem bestStepGo_diag {a : List String} {s : Nat} (hs : s < a.length) :
    ∀ (js : List Nat) (bst : DMatch),
      (∀ j ∈ js, j ∈ validJs a a 0 a.length s) →
      List.Pairwise (· < ·) js →
      bst.besti = bst.bestj →
      bst.besti + bst.size ≤ s + 1 →
      (∀ j, j < s → jtabFn a a 0 0 a.length (s + 1) j ≤ bst.size) →
      (s ∈ js ∨ jtabFn a a 0 0 a.length (s + 1) s ≤ bst.size) →
      (bestStep (jtabFn a a 0 0 a.length s) s js bst).besti =
          (bestStep (jtabFn a a 0 0 a.length s) s js bst).bestj ∧
        (bestStep (jtabFn a a 0 0 a.length s) s js bst).besti +
            (bestStep (jtabFn a a 0 0 a.length s) s js bst).size ≤ s + 1 ∧
        bst.size ≤ (bestStep (jtabFn a a 0 0 a.length s) s js bst).size ∧
        (∀ j, j < s → jtabFn a a 0 0 a.length (s + 1) j ≤
          (bestStep (jtabFn a a 0 0 a.length s) s js bst).size) ∧
        jtabFn a a 0 0 a.length (s + 1) s ≤
          (bestStep (jtabFn a a 0 0 a.length s) s js bst).size := by
  intro js
  induction js with
  | nil =>
    intro bst _ _ hdiag hsum hlt hsdisj
    rw [bestStep_nil]
    refine ⟨hdiag, hsum, Nat.le_refl _, hlt, ?_⟩
    rcases hsdisj with h | h
    · exact absurd h (List.not_mem_nil s)
    · exact h
  | cons j js' ih =>
    intro bst hmem hpw hdiag hsum hlt hsdisj
    rw [bestStep_cons]
    have hjv : j ∈ validJs a a 0 a.length s := hmem j (List.mem_cons_self j js')
    have hkj : jtabFn a a 0 0 a.length (s + 1) j =
        (if j = 0 then 0 else jtabFn a a 0 0 a.length s (j - 1)) + 1 :=
      jtab_succ_mem0 hjv
    have hpw' : List.Pairwise (· < ·) js' := hpw.of_cons
    have hmem' : ∀ x ∈ js', x ∈ validJs a a 0 a.length s :=
      fun x hx => hmem x (List.mem_cons_of_mem j hx)
    by_cases hupd : bst.size <
        (if j = 0 then 0 else jtabFn a a 0 0 a.length s (j - 1)) + 1
    · rw [if_pos hupd]
      rcases Nat.lt_trichotomy j s with hjs | hjs | hjs
      · exfalso
        have h1 := hlt j hjs
        rw [hkj] at h1
        omega
      · subst hjs
        have hksz : (if j = 0 then 0 else
            jtabFn a a 0 0 a.length j (j - 1)) + 1 ≤ j + 1 := by
          by_cases hj0 : j = 0
          · simp [hj0]
          · rw [if_neg hj0]
            have := @jtab_le a a 0 0 a.length j (j - 1)
            omega
        have hres := ih
          (⟨j + 1 - ((if j = 0 then 0 else
              jtabFn a a 0 0 a.length j (j - 1)) + 1),
            j + 1 - ((if j = 0 then 0 else
              jtabFn a a 0 0 a.length j (j - 1)) + 1),
            (if j = 0 then 0 else jtabFn a a 0 0 a.length j (j - 1)) + 1⟩ :
            DMatch)
          hmem' hpw' rfl (by simp only; omega)
          (by
            intro j' hj'
            simp only
            have := hlt j' hj'
            omega)
          (by
            right
            simp only
            rw [hkj])
        exact ⟨hres.1, hres.2.1, by
          have := hres.2.2.1
          simp only at this
          omega, hres.2.2.2.1, hres.2.2.2.2⟩
      · exfalso
        have hsr : jtabFn a a 0 0 a.length (s + 1) s ≤ bst.size := by
          rcases hsdisj with h | h
          · rcases List.mem_cons.mp h with h1 | h1
            · omega
            · have := (List.pairwise_cons.mp hpw).1 s h1
              omega
          · exact h
        have h2 := jtab_diag_dom s j hs
        rw [hkj] at h2
        omega
    · rw [if_neg hupd]
      apply ih bst hmem' hpw' hdiag hsum hlt
      rcases hsdisj with h | h
      · rcases List.mem_cons.mp h with h1 | h1
        · right
          subst h1
          rw [hkj]
          omega
        · left
          exact h1
      · right
        exact h

theorem bestAux_succ (a b : List String) (alo blo bhi s : Nat) :
    bestAux a b alo blo bhi (s + 1) =
      bestStep (jtabFn a b alo blo bhi s) (alo + s)
        (validJs a b blo bhi (alo + s)) (bestAux a b alo blo bhi s) := rfl

theorem bestAux_diag {a : List String} :
    ∀ s, s ≤ a.length →
      (bestAux a a 0 0 a.length s).besti = (bestAux a a 0 0 a.length s).bestj ∧
      (bestAux a a 0 0 a.length s).besti +
          (bestAux a a 0 0 a.length s).size ≤ s ∧
      (∀ s' ≤ s, ∀ j, jtabFn a a 0 0 a.length s' j ≤
        (bestAux a a 0 0 a.length s).size) := by
  intro s
  induction s with
  | zero =>
    intro _
    refine ⟨rfl, Nat.le_refl _, ?_⟩
    intro s' hs' j
    have hz : s' = 0 := by omega
    subst hz
    rw [jtab_zero]
    exact Nat.zero_le _
  | succ s ih =>
    intro hs
    have ihh := ih (by omega)
    have heq : bestAux a a 0 0 a.length (s + 1) =
        bestStep (jtabFn a a 0 0 a.length s) s
          (validJs a a 0 a.length s) (bestAux a a 0 0 a.length s) := by
      rw [bestAux_succ, Nat.zero_add]
    have hgo := @bestStepGo_diag a s (by omega)
      (validJs a a 0 a.length s) (bestAux a a 0 0 a.length s)
      (fun j h => h) (validJs_pairwise a a 0 a.length s)
      ihh.1 (by omega)
      (by
        intro j hj
        have h1 := @jtab_diag_later a (s + 1) j
        have h2 := ihh.2.2 (j + 1) (by omega) j
        omega)
      (by
        by_cases hsv : s ∈ validJs a a 0 a.length s
        · exact Or.inl hsv
        · right
          rw [jtab_succ_notmem0 hsv]
          omega)
    rw [heq]
    refine ⟨hgo.1, hgo.2.1, ?_⟩
    intro s' hs' j
    rcases Nat.lt_or_ge s' (s + 1) with h | h
    · have hA := ihh.2.2 s' (by omega) j
      have hB := hgo.2.2.1
      omega
    · have hs'eq : s' = s + 1 := by omega
      subst hs'eq
      rcases Nat.lt_trichotomy j s with hj | hj | hj
      · exact hgo.2.2.2.1 j hj
      · subst hj
        exact hgo.2.2.2.2
      · have h1 := @jtab_diag_dom a s j (by omega)
        have h2 := hgo.2.2.2.2
        omega

theorem extendLeft_self {a : List String} :
    ∀ (fuel : Nat) (m : DMatch), m.besti = m.bestj → m.besti ≤ fuel →
      extendLeftAux a a 0 0 fuel m = ⟨0, 0, m.size + m.besti⟩ := by
  intro fuel
  induction fuel with
  | zero =>
    intro m hdiag hle
    obtain ⟨bi, bj, sz⟩ := m
    simp only at hdiag hle
    have : bi = 0 := by omega
    subst this
    subst hdiag
    rfl
  | succ fuel ih =>
    intro m hdiag hle
    obtain ⟨bi, bj, sz⟩ := m
    simp only at hdiag hle
    subst hdiag
    unfold extendLeftAux
    by_cases hbi : 0 < bi
    · rw [if_pos ⟨hbi, hbi, rfl⟩]
      have hres := ih ⟨bi - 1, bi - 1, sz + 1⟩ rfl (by simp only; omega)
      rw [hres]
      have : sz + 1 + (bi - 1) = sz + bi := by omega
      simp only
      rw [this]
    · have hbi0 : bi = 0 := by omega
      subst hbi0
      rw [if_neg (by simp)]
      rfl

theorem extendRight_self {a : List String} :
    ∀ (fuel : Nat) (m : DMatch), m.besti = m.bestj →
      m.besti + m.size ≤ a.length →
      a.length - (m.besti + m.size) ≤ fuel →
      extendRightAux a a a.length a.length fuel m =
        ⟨m.besti, m.bestj, a.length - m.besti⟩ := by
  intro fuel
  induction fuel with
  | zero =>
    intro m hdiag hle hfuel
    obtain ⟨bi, bj, sz⟩ := m
    simp only at hdiag hle hfuel ⊢
    subst hdiag
    have hsz : sz = a.length - bi := by omega
    subst hsz
    rfl
  | succ fuel ih =>
    intro m hdiag hle hfuel
    obtain ⟨bi, bj, sz⟩ := m
    simp only at hdiag hle hfuel ⊢
    subst hdiag
    unfold extendRightAux
    by_cases hlt : bi + sz < a.length
    · rw [if_pos ⟨hlt, hlt, rfl⟩]
      have hres := ih ⟨bi, bi, sz + 1⟩ rfl (by dsimp only; omega)
        (by dsimp only; omega)
      rw [hres]
    · have heq : bi + sz = a.length := by omega
      rw [if_neg (by dsimp only; omega)]
      have hsz : sz = a.length - bi := by omega
      rw [hsz]

theorem flm_self (a : List String) :
    findLongestMatch a a 0 a.length 0 a.length = ⟨0, 0, a.length⟩ := by
  have hb := @bestAux_diag a a.length (Nat.le_refl _)
  unfold findLongestMatch
  simp only [Nat.sub_zero]
  have h1 := @extendLeft_self a
    (bestAux a a 0 0 a.length a.length).besti
    (bestAux a a 0 0 a.length a.length) hb.1 (Nat.le_refl _)
  rw [h1]
  have h2 := @extendRight_self a a.length
    ⟨0, 0, (bestAux a a 0 0 a.length a.length).size +
      (bestAux a a 0 0 a.length a.length).besti⟩ rfl
    (by dsimp only; omega) (by dsimp only; omega)
  rw [h2]
  simp

theorem matchingBlocksAux_succ (a b : List String)
    (fuel alo ahi blo bhi : Nat) :
    matchingBlocksAux a b (fuel + 1) alo ahi blo bhi =
      (let m := findLongestMatch a b alo ahi blo bhi
       if m.size = 0 then []
       else
         (if alo < m.besti ∧ blo < m.bestj then
           matchingBlocksAux a b fuel alo m.besti blo m.bestj
         else []) ++
         m ::
           (if m.besti + m.size < ahi ∧ m.bestj + m.size < bhi then
             matchingBlocksAux a b fuel (m.besti + m.size) ahi
               (m.bestj + m.size) bhi
           else [])) := rfl

theorem mbs_self (a : List String) (fuel : Nat) :
    matchingBlocksAux a a (fuel + 1) 0 a.length 0 a.length =
      if a.length = 0 then [] else [⟨0, 0, a.length⟩] := by
  rw [matchingBlocksAux_succ, flm_self]
  by_cases h : a.length = 0
  · simp [h]
  · simp [h]

theorem gmb_self (a : List String) :
    get_matching_blocks a a =
      if a.length = 0 then [⟨0, 0, 0⟩]
      else [⟨0, 0, a.length⟩, ⟨a.length, a.length, 0⟩] := by
  unfold get_matching_blocks
  rw [mbs_self a (a.length + a.length)]
  by_cases h : a.length = 0
  · simp [h, mergeAdjacent]
  · rw [if_neg h, if_neg h]
    have h1 : mergeAdjacent 0 0 0 [(⟨0, 0, a.length⟩ : DMatch)] =
        [⟨0, 0, a.length⟩] := by
      have e1 : mergeAdjacent 0 0 0 [(⟨0, 0, a.length⟩ : DMatch)] =
          mergeAdjacent 0 0 (0 + a.length) [] := rfl
      rw [e1]
      show (if 0 + a.length = 0 then []
        else [(⟨0, 0, 0 + a.length⟩ : DMatch)]) = _
      rw [if_neg (by omega)]
      simp
    rw [h1]
    rfl

theorem opcodes_self (a : List String) :
    get_opcodes a a =
      if a.length = 0 then []
      else [⟨.equal, 0, a.length, 0, a.length⟩] := by
  unfold get_opcodes
  rw [gmb_self]
  by_cases h : a.length = 0
  · simp [h, opcodesAux]
  · simp [h, opcodesAux]

theorem groupLoop_single_equal (n : Nat) (c : Opcode) (hc : c.tag = .equal)
    (hle : c.i2 - c.i1 ≤ 2 * n) : groupLoopAux n [] [c] = [] := by
  unfold groupLoopAux
  rw [if_neg (by
    intro ⟨_, hgt⟩
    omega)]
  unfold groupLoopAux
  rw [if_neg (by simp)]
  rw [if_pos (by simpa using hc)]

theorem grouped_of_single_equal (n : Nat) (c : Opcode) (hc : c.tag = .equal) :
    groupLoopAux n [] (trimLastOpcode n (trimFirstOpcode n [c])) = [] := by
  obtain ⟨tag, i1, i2, j1, j2⟩ := c
  simp only at hc
  subst hc
  have e1 : trimFirstOpcode n [(⟨.equal, i1, i2, j1, j2⟩ : Opcode)] =
      [⟨.equal, max i1 (i2 - n), i2, max j1 (j2 - n), j2⟩] := rfl
  have e2 : trimLastOpcode n
      [(⟨.equal, max i1 (i2 - n), i2, max j1 (j2 - n), j2⟩ : Opcode)] =
      [⟨.equal, max i1 (i2 - n), min i2 (max i1 (i2 - n) + n),
        max j1 (j2 - n), min j2 (max j1 (j2 - n) + n)⟩] := rfl
  rw [e1, e2]
  apply groupLoop_single_equal
  · rfl
  · dsimp only
    omega

theorem grouped_self (a : List String) : get_grouped_opcodes 3 a a = [] := by
  have hshow : get_grouped_opcodes 3 a a =
      groupLoopAux 3 []
        (trimLastOpcode 3 (trimFirstOpcode 3
          (if get_opcodes a a = [] then [⟨.equal, 0, 1, 0, 1⟩]
           else get_opcodes a a))) := rfl
  rw [hshow]
  by_cases h : a.length = 0
  · rw [opcodes_self, if_pos h, if_pos rfl]
    exact grouped_of_single_equal 3 _ rfl
  · rw [opcodes_self, if_neg h, if_neg (by simp)]
    exact grouped_of_single_equal 3 _ rfl

theorem unifiedDiff_self (a : List String) : unifiedDiffLines a a = [] := by
  unfold unifiedDiffLines
  rw [grouped_self]
  rfl

theorem iter_changes_self (X : String) : iter_changes X X = [] := by
  unfold iter_changes
  rw [unifiedDiff_self]
  rfl

/-! General facts about `find_longest_match` on arbitrary inputs:
bounds and genuineness of the returned match. -/

theorem jtab_spec {a b : List String} {alo blo bhi : Nat} :
    ∀ s j, 0 < jtabFn a b alo blo bhi s j →
      blo ≤ j ∧ j < bhi ∧ jtabFn a b alo blo bhi s j ≤ j + 1 - blo ∧
        ∀ t < jtabFn a b alo blo bhi s j,
          a.getD (alo + s - 1 - t) "" = b.getD (j - t) "" := by
  intro s
  induction s with
  | zero =>
    intro j h
    rw [jtab_zero] at h
    omega
  | succ s ih =>
    intro j h
    by_cases hj : j ∈ validJs a b blo bhi (alo + s)
    case neg =>
      rw [jtab_succ_notmem hj] at h
      omega
    case pos =>
      have heq := jtab_succ_mem hj
      rcases mem_validJs.mp hj with ⟨-, hval, -, hblo, hbhi⟩
      by_cases hj0 : j = 0
      · subst hj0
        rw [heq]
        have e0 : ((if (0 : Nat) = 0 then 0
            else jtabFn a b alo blo bhi s (0 - 1)) + 1) = 1 := by simp
        rw [e0]
        refine ⟨hblo, hbhi, by omega, ?_⟩
        intro t ht
        have ht0 : t = 0 := by omega
        subst ht0
        rw [show alo + (s + 1) - 1 - 0 = alo + s from by omega]
        exact hval.symm
      · rw [heq, if_neg hj0]
        have hjle := @jtab_le a b alo blo bhi s (j - 1)
        by_cases hprev : 0 < jtabFn a b alo blo bhi s (j - 1)
        · have hih := ih (j - 1) hprev
          refine ⟨hblo, hbhi, by omega, ?_⟩
          intro t ht
          by_cases ht0 : t = 0
          · subst ht0
            rw [show alo + (s + 1) - 1 - 0 = alo + s from by omega]
            exact hval.symm
          · have hrec := hih.2.2.2 (t - 1) (by omega)
            rw [show alo + s - 1 - (t - 1) = alo + (s + 1) - 1 - t from by
              omega] at hrec
            rw [show j - 1 - (t - 1) = j - t from by omega] at hrec
            exact hrec
        · have hz : jtabFn a b alo blo bhi s (j - 1) = 0 := by omega
          rw [hz]
          refine ⟨hblo, hbhi, by omega, ?_⟩
          intro t ht
          have ht0 : t = 0 := by omega
          subst ht0
          rw [show alo + (s + 1) - 1 - 0 = alo + s from by omega]
          exact hval.symm

theorem bestStepGo_spec {a b : List String} {alo blo ahi bhi s : Nat}
    (hi : alo + s < ahi) :
    ∀ (js : List Nat) (bst : DMatch),
      (∀ j ∈ js, j ∈ validJs a b blo bhi (alo + s)) →
      alo ≤ bst.besti → blo ≤ bst.bestj →
      bst.besti + bst.size ≤ ahi → bst.bestj + bst.size ≤ bhi →
      GenuineMatch a b bst →
      alo ≤ (bestStep (jtabFn a b alo blo bhi s) (alo + s) js bst).besti ∧
      blo ≤ (bestStep (jtabFn a b alo blo bhi s) (alo + s) js bst).bestj ∧
      (bestStep (jtabFn a b alo blo bhi s) (alo + s) js bst).besti +
          (bestStep (jtabFn a b alo blo bhi s) (alo + s) js bst).size ≤ ahi ∧
      (bestStep (jtabFn a b alo blo bhi s) (alo + s) js bst).bestj +
          (bestStep (jtabFn a b alo blo bhi s) (alo + s) js bst).size ≤ bhi ∧
      GenuineMatch a b (bestStep (jtabFn a b alo blo bhi s) (alo + s) js bst) := by
  intro js
  induction js with
  | nil =>
    intro bst _ h1 h2 h3 h4 h5
    rw [bestStep_nil]
    exact ⟨h1, h2, h3, h4, h5⟩
  | cons j js' ih =>
    intro bst hmem h1 h2 h3 h4 h5
    rw [bestStep_cons]
    have hjv : j ∈ validJs a b blo bhi (alo + s) :=
      hmem j (List.mem_cons_self j js')
    have hmem' : ∀ x ∈ js', x ∈ validJs a b blo bhi (alo + s) :=
      fun x hx => hmem x (List.mem_cons_of_mem j hx)
    by_cases hupd : bst.size <
        (if j = 0 then 0 else jtabFn a b alo blo bhi s (j - 1)) + 1
    · rw [if_pos hupd]
      have hk : jtabFn a b alo blo bhi (s + 1) j =
          (if j = 0 then 0 else jtabFn a b alo blo bhi s (j - 1)) + 1 :=
        jtab_succ_mem hjv
      have hkpos : 0 < jtabFn a b alo blo bhi (s + 1) j := by
        rw [hk]
        omega
      have hsp := jtab_spec (s + 1) j hkpos
      have hkle := @jtab_le a b alo blo bhi (s + 1) j
      rw [← hk]
      apply ih
      · exact hmem'
      · dsimp only
        omega
      · dsimp only
        omega
      · dsimp only
        omega
      · dsimp only
        omega
      · intro t ht
        dsimp only at ht ⊢
        have hchain := hsp.2.2.2
          (jtabFn a b alo blo bhi (s + 1) j - 1 - t) (by omega)
        rw [show alo + (s + 1) - 1 -
            (jtabFn a b alo blo bhi (s + 1) j - 1 - t) =
            alo + s + 1 - jtabFn a b alo blo bhi (s + 1) j + t from by
          omega] at hchain
        rw [show j - (jtabFn a b alo blo bhi (s + 1) j - 1 - t) =
            j + 1 - jtabFn a b alo blo bhi (s + 1) j + t from by
          omega] at hchain
        exact hchain
    · rw [if_neg hupd]
      exact ih bst hmem' h1 h2 h3 h4 h5

theorem bestAux_spec {a b : List String} {alo blo ahi bhi : Nat}
    (h1 : alo ≤ ahi) (h2 : blo ≤ bhi) :
    ∀ s, s ≤ ahi - alo →
      alo ≤ (bestAux a b alo blo bhi s).besti ∧
      blo ≤ (bestAux a b alo blo bhi s).bestj ∧
      (bestAux a b alo blo bhi s).besti +
          (bestAux a b alo blo bhi s).size ≤ ahi ∧
      (bestAux a b alo blo bhi s).bestj +
          (bestAux a b alo blo bhi s).size ≤ bhi ∧
      GenuineMatch a b (bestAux a b alo blo bhi s) := by
  intro s
  induction s with
  | zero =>
    intro _
    refine ⟨Nat.le_refl _, Nat.le_refl _, by
      show alo + 0 ≤ ahi
      omega, by
      show blo + 0 ≤ bhi
      omega, ?_⟩
    intro t ht
    have hz : (bestAux a b alo blo bhi 0).size = 0 := rfl
    omega
  | succ s ihs =>
    intro hs
    have ihh := ihs (by omega)
    rw [bestAux_succ]
    exact bestStepGo_spec (by omega) (validJs a b blo bhi (alo + s))
      (bestAux a b alo blo bhi s) (fun j h => h) ihh.1 ihh.2.1 ihh.2.2.1
      ihh.2.2.2.1 ihh.2.2.2.2

theorem extendLeft_spec {a b : List String} {alo blo : Nat} :
    ∀ (fuel : Nat) (m : DMatch), alo ≤ m.besti → blo ≤ m.bestj →
      GenuineMatch a b m →
      alo ≤ (extendLeftAux a b alo blo fuel m).besti ∧
      blo ≤ (extendLeftAux a b alo blo fuel m).bestj ∧
      (extendLeftAux a b alo blo fuel m).besti +
          (extendLeftAux a b alo blo fuel m).size = m.besti + m.size ∧
      (extendLeftAux a b alo blo fuel m).bestj +
          (extendLeftAux a b alo blo fuel m).size = m.bestj + m.size ∧
      GenuineMatch a b (extendLeftAux a b alo blo fuel m) := by
  intro fuel
  induction fuel with
  | zero =>
    intro m h1 h2 h5
    exact ⟨h1, h2, rfl, rfl, h5⟩
  | succ fuel ih =>
    intro m h1 h2 h5
    unfold extendLeftAux
    by_cases hg : alo < m.besti ∧ blo < m.bestj ∧
        a.getD (m.besti - 1) "" = b.getD (m.bestj - 1) ""
    · rw [if_pos hg]
      have hres := ih ⟨m.besti - 1, m.bestj - 1, m.size + 1⟩
        (by dsimp only; omega) (by dsimp only; omega)
        (by
          intro t ht
          dsimp only at ht ⊢
          by_cases ht0 : t = 0
          · subst ht0
            simpa using hg.2.2
          · have := h5 (t - 1) (by omega)
            rw [show m.besti - 1 + t = m.besti + (t - 1) from by omega,
              show m.bestj - 1 + t = m.bestj + (t - 1) from by omega]
            exact this)
      refine ⟨hres.1, hres.2.1, ?_, ?_, hres.2.2.2.2⟩
      · rw [hres.2.2.1]
        dsimp only
        omega
      · rw [hres.2.2.2.1]
        dsimp only
        omega
    · rw [if_neg hg]
      exact ⟨h1, h2, rfl, rfl, h5⟩

theorem extendRight_spec {a b : List String} {ahi bhi : Nat} :
    ∀ (fuel : Nat) (m : DMatch), m.besti + m.size ≤ ahi →
      m.bestj + m.size ≤ bhi → GenuineMatch a b m →
      (extendRightAux a b ahi bhi fuel m).besti = m.besti ∧
      (extendRightAux a b ahi bhi fuel m).bestj = m.bestj ∧
      (extendRightAux a b ahi bhi fuel m).besti +
          (extendRightAux a b ahi bhi fuel m).size ≤ ahi ∧
      (extendRightAux a b ahi bhi fuel m).bestj +
          (extendRightAux a b ahi bhi fuel m).size ≤ bhi ∧
      GenuineMatch a b (extendRightAux a b ahi bhi fuel m) := by
  intro fuel
  induction fuel with
  | zero =>
    intro m h3 h4 h5
    exact ⟨rfl, rfl, h3, h4, h5⟩
  | succ fuel ih =>
    intro m h3 h4 h5
    unfold extendRightAux
    by_cases hg : m.besti + m.size < ahi ∧ m.bestj + m.size < bhi ∧
        a.getD (m.besti + m.size) "" = b.getD (m.bestj + m.size) ""
    · rw [if_pos hg]
      have hres := ih ⟨m.besti, m.bestj, m.size + 1⟩
        (by dsimp only; omega) (by dsimp only; omega)
        (by
          intro t ht
          dsimp only at ht ⊢
          by_cases htl : t < m.size
          · exact h5 t htl
          · have hts : t = m.size := by omega
            subst hts
            exact hg.2.2)
      exact ⟨hres.1, hres.2.1, hres.2.2.1, hres.2.2.2.1, hres.2.2.2.2⟩
    · rw [if_neg hg]
      exact ⟨rfl, rfl, h3, h4, h5⟩

theorem flm_spec {a b : List String} {alo ahi blo bhi : Nat}
    (h1 : alo ≤ ahi) (h2 : blo ≤ bhi) :
    alo ≤ (findLongestMatch a b alo ahi blo bhi).besti ∧
    blo ≤ (findLongestMatch a b alo ahi blo bhi).bestj ∧
    (findLongestMatch a b alo ahi blo bhi).besti +
        (findLongestMatch a b alo ahi blo bhi).size ≤ ahi ∧
    (findLongestMatch a b alo ahi blo bhi).bestj +
        (findLongestMatch a b alo ahi blo bhi).size ≤ bhi ∧
    GenuineMatch a b (findLongestMatch a b alo ahi blo bhi) := by
  have hb := @bestAux_spec a b _ _ _ _ h1 h2 (ahi - alo) (Nat.le_refl _)
  have he := @extendLeft_spec a b _ _
    (bestAux a b alo blo bhi (ahi - alo)).besti
    (bestAux a b alo blo bhi (ahi - alo)) hb.1 hb.2.1 hb.2.2.2.2
  have hr := @extendRight_spec a b ahi bhi ahi
    (extendLeftAux a b alo blo (bestAux a b alo blo bhi (ahi - alo)).besti
      (bestAux a b alo blo bhi (ahi - alo)))
    (by omega) (by omega) he.2.2.2.2
  unfold findLongestMatch
  refine ⟨?_, ?_, hr.2.2.1, hr.2.2.2.1, hr.2.2.2.2⟩
  · rw [hr.1]
    omega
  · rw [hr.2.1]
    omega

theorem ChainedIn_le {hi hj : Nat} :
    ∀ (ms : List DMatch) (i j : Nat), ChainedIn i j hi hj ms →
      i ≤ hi ∧ j ≤ hj := by
  intro ms
  induction ms with
  | nil => intro i j h; exact h
  | cons m rest ih =>
    intro i j h
    obtain ⟨ha, hb, hc⟩ := h
    have hrec := ih (m.besti + m.size) (m.bestj + m.size) hc
    exact ⟨by omega, by omega⟩

theorem ChainedIn_mono {hi hj : Nat} :
    ∀ (ms : List DMatch) (i j i' j' : Nat), ChainedIn i j hi hj ms →
      i' ≤ i → j' ≤ j → ChainedIn i' j' hi hj ms := by
  intro ms
  induction ms with
  | nil =>
    intro i j i' j' h hi' hj'
    obtain ⟨h1, h2⟩ := h
    exact ⟨by omega, by omega⟩
  | cons m rest _ =>
    intro i j i' j' h hi' hj'
    obtain ⟨h1, h2, h3⟩ := h
    exact ⟨by omega, by omega, h3⟩

theorem ChainedIn_append {hi hj : Nat} :
    ∀ (l1 l2 : List DMatch) (i j k l : Nat), ChainedIn i j k l l1 →
      ChainedIn k l hi hj l2 → ChainedIn i j hi hj (l1 ++ l2) := by
  intro l1
  induction l1 with
  | nil =>
    intro l2 i j k l h1 h2
    exact ChainedIn_mono l2 k l i j h2 h1.1 h1.2
  | cons m rest ih =>
    intro l2 i j k l h1 h2
    exact ⟨h1.1, h1.2.1, ih l2 _ _ k l h1.2.2 h2⟩

theorem matchingBlocks_spec {a b : List String} :
    ∀ (fuel alo ahi blo bhi : Nat), alo ≤ ahi → blo ≤ bhi →
      ChainedIn alo blo ahi bhi (matchingBlocksAux a b fuel alo ahi blo bhi) ∧
      ∀ m ∈ matchingBlocksAux a b fuel alo ahi blo bhi,
        GenuineMatch a b m ∧ 0 < m.size := by
  intro fuel
  induction fuel with
  | zero =>
    intro alo ahi blo bhi h1 h2
    exact ⟨⟨h1, h2⟩, fun m hm => absurd hm (List.not_mem_nil m)⟩
  | succ fuel ih =>
    intro alo ahi blo bhi h1 h2
    rw [matchingBlocksAux_succ]
    have hf := @flm_spec a b alo ahi blo bhi h1 h2
    by_cases hz : (findLongestMatch a b alo ahi blo bhi).size = 0
    · rw [if_pos hz]
      exact ⟨⟨h1, h2⟩, fun m hm => absurd hm (List.not_mem_nil m)⟩
    · rw [if_neg hz]
      have hleft : ChainedIn alo blo (findLongestMatch a b alo ahi blo bhi).besti
          (findLongestMatch a b alo ahi blo bhi).bestj
          (if alo < (findLongestMatch a b alo ahi blo bhi).besti ∧
              blo < (findLongestMatch a b alo ahi blo bhi).bestj then
            matchingBlocksAux a b fuel alo
              (findLongestMatch a b alo ahi blo bhi).besti blo
              (findLongestMatch a b alo ahi blo bhi).bestj
          else []) ∧
          ∀ m ∈ (if alo < (findLongestMatch a b alo ahi blo bhi).besti ∧
              blo < (findLongestMatch a b alo ahi blo bhi).bestj then
            matchingBlocksAux a b fuel alo
              (findLongestMatch a b alo ahi blo bhi).besti blo
              (findLongestMatch a b alo ahi blo bhi).bestj
          else []), GenuineMatch a b m ∧ 0 < m.size := by
        by_cases hg : alo < (findLongestMatch a b alo ahi blo bhi).besti ∧
            blo < (findLongestMatch a b alo ahi blo bhi).bestj
        · rw [if_pos hg]
          exact ih alo _ blo _ (by omega) (by omega)
        · rw [if_neg hg]
          exact ⟨⟨hf.1, hf.2.1⟩, fun m hm => absurd hm (List.not_mem_nil m)⟩
      have hright : ChainedIn
          ((findLongestMatch a b alo ahi blo bhi).besti +
            (findLongestMatch a b alo ahi blo bhi).size)
          ((findLongestMatch a b alo ahi blo bhi).bestj +
            (findLongestMatch a b alo ahi blo bhi).size) ahi bhi
          (if (findLongestMatch a b alo ahi blo bhi).besti +
              (findLongestMatch a b alo ahi blo bhi).size < ahi ∧
              (findLongestMatch a b alo ahi blo bhi).bestj +
              (findLongestMatch a b alo ahi blo bhi).size < bhi then
            matchingBlocksAux a b fuel
              ((findLongestMatch a b alo ahi blo bhi).besti +
                (findLongestMatch a b alo ahi blo bhi).size) ahi
              ((findLongestMatch a b alo ahi blo bhi).bestj +
                (findLongestMatch a b alo ahi blo bhi).size) bhi
          else []) ∧
          ∀ m ∈ (if (findLongestMatch a b alo ahi blo bhi).besti +
              (findLongestMatch a b alo ahi blo bhi).size < ahi ∧
              (findLongestMatch a b alo ahi blo bhi).bestj +
              (findLongestMatch a b alo ahi blo bhi).size < bhi then
            matchingBlocksAux a b fuel
              ((findLongestMatch a b alo ahi blo bhi).besti +
                (findLongestMatch a b alo ahi blo bhi).size) ahi
              ((findLongestMatch a b alo ahi blo bhi).bestj +
                (findLongestMatch a b alo ahi blo bhi).size) bhi
          else []), GenuineMatch a b m ∧ 0 < m.size := by
        by_cases hg : (findLongestMatch a b alo ahi blo bhi).besti +
            (findLongestMatch a b alo ahi blo bhi).size < ahi ∧
            (findLongestMatch a b alo ahi blo bhi).bestj +
            (findLongestMatch a b alo ahi blo bhi).size < bhi
        · rw [if_pos hg]
          exact ih _ ahi _ bhi (by omega) (by omega)
        · rw [if_neg hg]
          exact ⟨⟨hf.2.2.1, hf.2.2.2.1⟩, fun m hm =>
            absurd hm (List.not_mem_nil m)⟩
      constructor
      · apply ChainedIn_append _ _ alo blo
          (findLongestMatch a b alo ahi blo bhi).besti
          (findLongestMatch a b alo ahi blo bhi).bestj hleft.1
        exact ⟨Nat.le_refl _, Nat.le_refl _, hright.1⟩
      · intro m hm
        rcases List.mem_append.mp hm with hm1 | hm1
        · exact hleft.2 m hm1
        · rcases List.mem_cons.mp hm1 with rfl | hm2
          · exact ⟨hf.2.2.2.2, by omega⟩
          · exact hright.2 m hm2

theorem genuine_concat {a b : List String} {i j k k2 : Nat}
    (h1 : GenuineMatch a b ⟨i, j, k⟩)
    (h2 : GenuineMatch a b ⟨i + k, j + k, k2⟩) :
    GenuineMatch a b ⟨i, j, k + k2⟩ := by
  intro t ht
  dsimp only at ht ⊢
  by_cases htk : t < k
  · exact h1 t htk
  · have := h2 (t - k) (by dsimp only; omega)
    dsimp only at this
    rw [show i + k + (t - k) = i + t from by omega,
      show j + k + (t - k) = j + t from by omega] at this
    exact this

theorem mergeAdjacent_spec {a b : List String} {hi hj : Nat} :
    ∀ (ms : List DMatch) (i1 j1 k1 : Nat),
      GenuineMatch a b ⟨i1, j1, k1⟩ →
      (∀ m ∈ ms, GenuineMatch a b m) →
      ChainedIn (i1 + k1) (j1 + k1) hi hj ms →
      ChainedIn i1 j1 hi hj (mergeAdjacent i1 j1 k1 ms) ∧
      ∀ m ∈ mergeAdjacent i1 j1 k1 ms, GenuineMatch a b m := by
  intro ms
  induction ms with
  | nil =>
    intro i1 j1 k1 hg _ hc
    obtain ⟨hc1, hc2⟩ := hc
    unfold mergeAdjacent
    by_cases hk : k1 = 0
    · rw [if_pos hk]
      exact ⟨⟨by omega, by omega⟩, fun m hm => absurd hm (List.not_mem_nil m)⟩
    · rw [if_neg hk]
      refine ⟨⟨Nat.le_refl _, Nat.le_refl _, by dsimp only; omega,
        by dsimp only; omega⟩, ?_⟩
      intro m hm
      rcases List.mem_cons.mp hm with rfl | hm1
      · exact hg
      · exact absurd hm1 (List.not_mem_nil m)
  | cons m rest ih =>
    intro i1 j1 k1 hg hgs hc
    obtain ⟨hc1, hc2, hc3⟩ := hc
    unfold mergeAdjacent
    by_cases hadj : i1 + k1 = m.besti ∧ j1 + k1 = m.bestj
    · rw [if_pos hadj]
      have hgm : GenuineMatch a b ⟨i1 + k1, j1 + k1, m.size⟩ := by
        intro t ht
        dsimp only at ht ⊢
        rw [hadj.1, hadj.2]
        exact hgs m (List.mem_cons_self m rest) t ht
      have hnew : GenuineMatch a b ⟨i1, j1, k1 + m.size⟩ :=
        genuine_concat hg hgm
      have hrec := ih i1 j1 (k1 + m.size) hnew
        (fun x hx => hgs x (List.mem_cons_of_mem m hx))
        (by
          rw [show i1 + (k1 + m.size) = m.besti + m.size from by omega,
            show j1 + (k1 + m.size) = m.bestj + m.size from by omega]
          exact hc3)
      exact hrec
    · rw [if_neg hadj]
      have hrec := ih m.besti m.bestj m.size
        (by
          intro t ht
          exact hgs m (List.mem_cons_self m rest) t ht)
        (fun x hx => hgs x (List.mem_cons_of_mem m hx)) hc3
      by_cases hk : k1 = 0
      · rw [if_pos hk]
        rw [List.nil_append]
        exact ⟨ChainedIn_mono _ _ _ _ _ hrec.1 (by omega) (by omega), hrec.2⟩
      · rw [if_neg hk]
        refine ⟨?_, ?_⟩
        · refine ChainedIn_append _ _ i1 j1 (i1 + k1) (j1 + k1) ?_ ?_
          · exact ⟨Nat.le_refl _, Nat.le_refl _, Nat.le_refl _, Nat.le_refl _⟩
          · exact ChainedIn_mono _ _ _ _ _ hrec.1 (by omega) (by omega)
        · intro x hx
          rcases List.mem_append.mp hx with hx1 | hx1
          · rcases List.mem_cons.mp hx1 with rfl | hx2
            · exact hg
            · exact absurd hx2 (List.not_mem_nil x)
          · exact hrec.2 x hx1

theorem gmb_spec {a b : List String} :
    ChainedIn 0 0 a.length b.length (get_matching_blocks a b) ∧
    ∀ m ∈ get_matching_blocks a b, GenuineMatch a b m := by
  unfold get_matching_blocks
  have hmb := @matchingBlocks_spec a b
    (a.length + b.length + 1) 0 a.length 0 b.length (by omega) (by omega)
  have hmerge := @mergeAdjacent_spec a b a.length b.length
    (matchingBlocksAux a b (a.length + b.length + 1) 0 a.length 0 b.length)
    0 0 0 (fun t ht => absurd ht (by dsimp only; omega))
    (fun m hm => (hmb.2 m hm).1) hmb.1
  constructor
  · refine ChainedIn_append _ _ 0 0 a.length b.length hmerge.1 ?_
    exact ⟨Nat.le_refl _, Nat.le_refl _, by
      show ChainedIn (a.length + 0) (b.length + 0) a.length b.length []
      exact ⟨by omega, by omega⟩⟩
  · intro m hm
    rcases List.mem_append.mp hm with hm1 | hm1
    · exact hmerge.2 m hm1
    · rcases List.mem_cons.mp hm1 with rfl | hm2
      · intro t ht
        dsimp only at ht
        omega
      · exact absurd hm2 (List.not_mem_nil m)

theorem opcodesAux_cons (i j : Nat) (m : DMatch) (rest : List DMatch) :
    opcodesAux i j (m :: rest) =
      (if i < m.besti ∧ j < m.bestj then
        [⟨.replace, i, m.besti, j, m.bestj⟩]
      else if i < m.besti then [⟨.delete, i, m.besti, j, m.bestj⟩]
      else if j < m.bestj then [⟨.insert, i, m.besti, j, m.bestj⟩]
      else []) ++
      (if m.size = 0 then []
       else [⟨.equal, m.besti, m.besti + m.size, m.bestj, m.bestj + m.size⟩]) ++
      opcodesAux (m.besti + m.size) (m.bestj + m.size) rest := rfl

theorem scanEnd_cons (i j : Nat) (m : DMatch) (rest : List DMatch) :
    scanEnd i j (m :: rest) =
      scanEnd (m.besti + m.size) (m.bestj + m.size) rest := rfl

theorem opcodes_all_equal_scan {a b : List String} {hi hj : Nat} :
    ∀ (ms : List DMatch) (i j : Nat),
      (∀ m ∈ ms, GenuineMatch a b m) →
      ChainedIn i j hi hj ms → i = j →
      (∀ op ∈ opcodesAux i j ms, op.tag = DiffTag.equal) →
      (scanEnd i j ms).1 = (scanEnd i j ms).2 ∧
        ∀ p, i ≤ p → p < (scanEnd i j ms).1 → a.getD p "" = b.getD p "" := by
  intro ms
  induction ms with
  | nil =>
    intro i j _ _ hij _
    exact ⟨hij, fun p hp1 hp2 => absurd hp2 (by simp [scanEnd] at hp1 ⊢; omega)⟩
  | cons m rest ih =>
    intro i j hgen hci hij hops
    obtain ⟨hc1, hc2, hc3⟩ := hci
    have hnr : ¬ (i < m.besti ∧ j < m.bestj) := by
      intro hc
      have := hops ⟨.replace, i, m.besti, j, m.bestj⟩ (by
        rw [opcodesAux_cons]
        apply List.mem_append_left
        apply List.mem_append_left
        rw [if_pos hc]
        exact List.mem_cons_self _ _)
      simp at this
    have hnd : ¬ i < m.besti := by
      intro hc
      have := hops ⟨.delete, i, m.besti, j, m.bestj⟩ (by
        rw [opcodesAux_cons]
        apply List.mem_append_left
        apply List.mem_append_left
        rw [if_neg hnr, if_pos hc]
        exact List.mem_cons_self _ _)
      simp at this
    have hni : ¬ j < m.bestj := by
      intro hc
      have := hops ⟨.insert, i, m.besti, j, m.bestj⟩ (by
        rw [opcodesAux_cons]
        apply List.mem_append_left
        apply List.mem_append_left
        rw [if_neg hnr, if_neg hnd, if_pos hc]
        exact List.mem_cons_self _ _)
      simp at this
    have hbi : m.besti = i := by omega
    have hbj : m.bestj = j := by omega
    have hrec := ih (m.besti + m.size) (m.bestj + m.size)
      (fun x hx => hgen x (List.mem_cons_of_mem m hx)) hc3
      (by omega)
      (fun op hop => hops op (by
        rw [opcodesAux_cons]
        exact List.mem_append_right _ hop))
    rw [scanEnd_cons]
    refine ⟨hrec.1, ?_⟩
    intro p hp1 hp2
    by_cases hplt : p < i + m.size
    · have := hgen m (List.mem_cons_self m rest) (p - i) (by omega)
      rw [hbi, hbj] at this
      rw [show i + (p - i) = p from by omega] at this
      rw [show j + (p - i) = p from by omega] at this
      exact this
    · exact hrec.2 p (by omega) hp2

theorem scanEnd_append_last :
    ∀ (L : List DMatch) (m : DMatch) (i j : Nat),
      scanEnd i j (L ++ [m]) = (m.besti + m.size, m.bestj + m.size) := by
  intro L
  induction L with
  | nil => intro m i j; rfl
  | cons x rest ih =>
    intro m i j
    rw [List.cons_append, scanEnd_cons]
    exact ih m _ _

theorem get_opcodes_all_equal {a b : List String}
    (h : ∀ op ∈ get_opcodes a b, op.tag = DiffTag.equal) : a = b := by
  have hg := @gmb_spec a b
  have hs := opcodes_all_equal_scan (get_matching_blocks a b) 0 0 hg.2 hg.1
    rfl h
  have hend : scanEnd 0 0 (get_matching_blocks a b) =
      (a.length + 0, b.length + 0) := by
    unfold get_matching_blocks
    exact scanEnd_append_last _ _ _ _
  rw [hend] at hs
  have hlen : a.length = b.length := by
    have := hs.1
    simpa using this
  apply List.ext_getElem hlen
  intro n h1 h2
  have hp := hs.2 n (Nat.zero_le _) (by simpa using h1)
  rw [List.getD_eq_getElem?_getD, List.getD_eq_getElem?_getD] at hp
  rw [List.getElem?_eq_getElem h1, List.getElem?_eq_getElem h2] at hp
  simpa using hp

theorem exists_nonequal_of_ne {a b : List String} (h : a ≠ b) :
    ∃ op ∈ get_opcodes a b, op.tag ≠ DiffTag.equal := by
  by_contra hc
  push_neg at hc
  exact h (get_opcodes_all_equal hc)

theorem opcodes_nonequal_bounds {hi hj : Nat} :
    ∀ (ms : List DMatch) (i j : Nat), ChainedIn i j hi hj ms →
      ∀ op ∈ opcodesAux i j ms, op.tag ≠ DiffTag.equal →
        ((op.tag = .delete ∨ op.tag = .replace) →
          op.i1 < op.i2 ∧ op.i2 ≤ hi) ∧
        ((op.tag = .insert ∨ op.tag = .replace) →
          op.j1 < op.j2 ∧ op.j2 ≤ hj) := by
  intro ms
  induction ms with
  | nil =>
    intro i j _ op hop
    exact absurd hop (List.not_mem_nil op)
  | cons m rest ih =>
    intro i j hci op hop hne
    obtain ⟨hc1, hc2, hc3⟩ := hci
    have hle := ChainedIn_le rest _ _ hc3
    rw [opcodesAux_cons] at hop
    rcases List.mem_append.mp hop with hop1 | hop1
    · rcases List.mem_append.mp hop1 with hop2 | hop2
      · by_cases h1 : i < m.besti ∧ j < m.bestj
        · rw [if_pos h1] at hop2
          rcases List.mem_cons.mp hop2 with rfl | h
          · exact ⟨fun _ => ⟨by dsimp only; omega, by dsimp only; omega⟩,
              fun _ => ⟨by dsimp only; omega, by dsimp only; omega⟩⟩
          · exact absurd h (List.not_mem_nil op)
        · rw [if_neg h1] at hop2
          by_cases h2 : i < m.besti
          · rw [if_pos h2] at hop2
            rcases List.mem_cons.mp hop2 with rfl | h
            · refine ⟨fun _ => ⟨by dsimp only; omega, by dsimp only; omega⟩,
                fun hf => ?_⟩
              rcases hf with hf | hf <;> simp at hf
            · exact absurd h (List.not_mem_nil op)
          · rw [if_neg h2] at hop2
            by_cases h3 : j < m.bestj
            · rw [if_pos h3] at hop2
              rcases List.mem_cons.mp hop2 with rfl | h
              · refine ⟨fun hf => ?_,
                  fun _ => ⟨by dsimp only; omega, by dsimp only; omega⟩⟩
                rcases hf with hf | hf <;> simp at hf
              · exact absurd h (List.not_mem_nil op)
            · rw [if_neg h3] at hop2
              exact absurd hop2 (List.not_mem_nil op)
      · by_cases hz : m.size = 0
        · rw [if_pos hz] at hop2
          exact absurd hop2 (List.not_mem_nil op)
        · rw [if_neg hz] at hop2
          rcases List.mem_cons.mp hop2 with rfl | h
          · exact absurd rfl hne
          · exact absurd h (List.not_mem_nil op)
    · exact ih _ _ hc3 op hop1 hne

theorem trimFirst_cons (n : Nat) (c : Opcode) (rest : List Opcode) :
    trimFirstOpcode n (c :: rest) =
      if c.tag = .equal then
        ⟨c.tag, max c.i1 (c.i2 - n), c.i2, max c.j1 (c.j2 - n), c.j2⟩ :: rest
      else c :: rest := rfl

theorem mem_trimFirst {n : Nat} {codes : List Opcode} {op : Opcode}
    (hop : op ∈ codes) (hne : op.tag ≠ .equal) :
    op ∈ trimFirstOpcode n codes := by
  cases codes with
  | nil => exact absurd hop (List.not_mem_nil op)
  | cons c rest =>
    rw [trimFirst_cons]
    by_cases hc : c.tag = .equal
    · rw [if_pos hc]
      rcases List.mem_cons.mp hop with rfl | h
      · exact absurd hc hne
      · exact List.mem_cons_of_mem _ h
    · rw [if_neg hc]
      exact hop

theorem trimLast_single (n : Nat) (c : Opcode) :
    trimLastOpcode n [c] =
      if c.tag = .equal then
        [⟨c.tag, c.i1, min c.i2 (c.i1 + n), c.j1, min c.j2 (c.j1 + n)⟩]
      else [c] := rfl

theorem trimLast_cons2 (n : Nat) (c d : Opcode) (rest : List Opcode) :
    trimLastOpcode n (c :: d :: rest) = c :: trimLastOpcode n (d :: rest) :=
  rfl

theorem mem_trimLast {n : Nat} :
    ∀ (codes : List Opcode) (op : Opcode), op ∈ codes → op.tag ≠ .equal →
      op ∈ trimLastOpcode n codes := by
  intro codes
  induction codes with
  | nil => intro op h _; exact absurd h (List.not_mem_nil op)
  | cons c rest ih =>
    intro op hop hne
    cases rest with
    | nil =>
      rcases List.mem_cons.mp hop with rfl | h
      · rw [trimLast_single, if_neg hne]
        exact List.mem_cons_self _ _
      · exact absurd h (List.not_mem_nil op)
    | cons d rest2 =>
      rw [trimLast_cons2]
      rcases List.mem_cons.mp hop with rfl | h
      · exact List.mem_cons_self _ _
      · exact List.mem_cons_of_mem _ (ih op h hne)

theorem groupLoop_nil (n : Nat) (group : List Opcode) :
    groupLoopAux n group [] =
      if group = [] then []
      else if group.length = 1 ∧
          (group.headD ⟨.equal, 0, 0, 0, 0⟩).tag = .equal then []
      else [group] := rfl

theorem groupLoop_cons (n : Nat) (group : List Opcode) (c : Opcode)
    (rest : List Opcode) :
    groupLoopAux n group (c :: rest) =
      if c.tag = .equal ∧ 2 * n < c.i2 - c.i1 then
        (group ++
          [⟨.equal, c.i1, min c.i2 (c.i1 + n), c.j1, min c.j2 (c.j1 + n)⟩]) ::
          groupLoopAux n
            [⟨.equal, max c.i1 (c.i2 - n), c.i2, max c.j1 (c.j2 - n), c.j2⟩]
            rest
      else groupLoopAux n (group ++ [c]) rest := rfl

theorem groupLoop_mem {n : Nat} :
    ∀ (codes group : List Opcode) (op : Opcode), op.tag ≠ .equal →
      op ∈ group ∨ op ∈ codes →
      ∃ g ∈ groupLoopAux n group codes, op ∈ g := by
  intro codes
  induction codes with
  | nil =>
    intro group op hne hmem
    rcases hmem with h | h
    · rw [groupLoop_nil]
      rw [if_neg (List.ne_nil_of_mem h)]
      rw [if_neg (by
        rintro ⟨hl, hh⟩
        rcases List.length_eq_one.mp hl with ⟨x, rfl⟩
        rcases List.mem_cons.mp h with rfl | hx
        · exact hne hh
        · exact absurd hx (List.not_mem_nil op))]
      exact ⟨group, List.mem_cons_self _ _, h⟩
    · exact absurd h (List.not_mem_nil op)
  | cons c rest ih =>
    intro group op hne hmem
    rw [groupLoop_cons]
    by_cases hc : c.tag = .equal ∧ 2 * n < c.i2 - c.i1
    · rw [if_pos hc]
      rcases hmem with h | h
      · exact ⟨group ++
          [⟨.equal, c.i1, min c.i2 (c.i1 + n), c.j1, min c.j2 (c.j1 + n)⟩],
          List.mem_cons_self _ _, List.mem_append_left _ h⟩
      · rcases List.mem_cons.mp h with rfl | h2
        · exact absurd hc.1 hne
        · rcases ih _ op hne (Or.inr h2) with ⟨g, hg, hgo⟩
          exact ⟨g, List.mem_cons_of_mem _ hg, hgo⟩
    · rw [if_neg hc]
      apply ih (group ++ [c]) op hne
      rcases hmem with h | h
      · exact Or.inl (List.mem_append_left _ h)
      · rcases List.mem_cons.mp h with rfl | h2
        · exact Or.inl (List.mem_append_right _ (List.mem_cons_self _ _))
        · exact Or.inr h2

theorem sliceList_ne_nil {l : List String} {i j : Nat} (h1 : i < j)
    (h2 : j ≤ l.length) : sliceList l i j ≠ [] := by
  unfold sliceList
  intro h
  have := congrArg List.length h
  rw [List.length_take, List.length_drop] at this
  simp at this
  omega

theorem sliceList_subset {l : List String} {i j : Nat} :
    sliceList l i j ⊆ l := by
  unfold sliceList
  intro x hx
  exact List.drop_subset _ _ (List.take_subset _ _ hx)

theorem pyStartswith_empty (s : String) : pyStartswith s "" = true := by
  unfold pyStartswith
  cases s with
  | mk data => cases data <;> rfl

theorem pyStartswith_cons_ne (c d : Char) (s pre : String) (hne : c ≠ d) :
    pyStartswith (⟨[c]⟩ ++ s) ⟨d :: pre.data⟩ = false := by
  have hdc : (d == c) = false := beq_eq_false_iff_ne.mpr fun h => hne h.symm
  unfold pyStartswith
  rw [String.data_append]
  show List.isPrefixOf (d :: pre.data) (c :: s.data) = false
  simp [List.isPrefixOf, hdc]

theorem opcodeLines_delete {a b : List String} {op : Opcode}
    (h : op.tag = .delete) :
    opcodeLines a b op =
      (sliceList a op.i1 op.i2).map (fun line => "-" ++ line) := by
  unfold opcodeLines
  rw [h]

theorem opcodeLines_insert {a b : List String} {op : Opcode}
    (h : op.tag = .insert) :
    opcodeLines a b op =
      (sliceList b op.j1 op.j2).map (fun line => "+" ++ line) := by
  unfold opcodeLines
  rw [h]

theorem opcodeLines_replace {a b : List String} {op : Opcode}
    (h : op.tag = .replace) :
    opcodeLines a b op =
      (sliceList a op.i1 op.i2).map (fun line => "-" ++ line) ++
        (sliceList b op.j1 op.j2).map (fun line => "+" ++ line) := by
  unfold opcodeLines
  rw [h]

theorem mem_unifiedDiff_of_group {a b : List String} {g : List Opcode}
    {op : Opcode} {line : String}
    (hmg : g ∈ get_grouped_opcodes 3 a b) (hopg : op ∈ g)
    (hline : line ∈ opcodeLines a b op) :
    line ∈ unifiedDiffLines a b := by
  have hshow : unifiedDiffLines a b =
      if get_grouped_opcodes 3 a b = [] then []
      else "--- versión anterior" :: "+++ versión nueva" ::
        (get_grouped_opcodes 3 a b).flatMap (groupLines a b) := rfl
  rw [hshow, if_neg (List.ne_nil_of_mem hmg)]
  exact List.mem_cons_of_mem _ (List.mem_cons_of_mem _
    (List.mem_flatMap.mpr ⟨g, hmg, List.mem_cons_of_mem _
      (List.mem_flatMap.mpr ⟨op, hopg, hline⟩)⟩))

theorem mem_grouped_of_nonequal {a b : List String} {op : Opcode}
    (hop : op ∈ get_opcodes a b) (hopne : op.tag ≠ DiffTag.equal) :
    ∃ g ∈ get_grouped_opcodes 3 a b, op ∈ g := by
  have hcodesne : get_opcodes a b ≠ [] := List.ne_nil_of_mem hop
  have hshow : get_grouped_opcodes 3 a b =
      groupLoopAux 3 [] (trimLastOpcode 3 (trimFirstOpcode 3
        (if get_opcodes a b = [] then [⟨.equal, 0, 1, 0, 1⟩]
         else get_opcodes a b))) := rfl
  rw [hshow, if_neg hcodesne]
  exact groupLoop_mem _ [] op hopne
    (Or.inr (mem_trimLast _ op (mem_trimFirst hop hopne) hopne))

theorem minus_line_filter {x : String} (hm : pyStartswith x "--" = false) :
    ((pyStartswith ("-" ++ x) "+" || pyStartswith ("-" ++ x) "-") &&
      !(pyStartswith ("-" ++ x) "+++" || pyStartswith ("-" ++ x) "---")) =
      true := by
  have e1 : pyStartswith ("-" ++ x) "-" = pyStartswith x "" :=
    pyStartswith_cons '-' x ""
  have e2 : pyStartswith ("-" ++ x) "---" = pyStartswith x "--" :=
    pyStartswith_cons '-' x "--"
  have e3 : pyStartswith ("-" ++ x) "+++" = false :=
    pyStartswith_cons_ne '-' '+' x "++" (by decide)
  rw [e1.trans (pyStartswith_empty x), e3, e2.trans hm]
  simp

theorem plus_line_filter {x : String} (hm : pyStartswith x "++" = false) :
    ((pyStartswith ("+" ++ x) "+" || pyStartswith ("+" ++ x) "-") &&
      !(pyStartswith ("+" ++ x) "+++" || pyStartswith ("+" ++ x) "---")) =
      true := by
  have e1 : pyStartswith ("+" ++ x) "+" = pyStartswith x "" :=
    pyStartswith_cons '+' x ""
  have e2 : pyStartswith ("+" ++ x) "+++" = pyStartswith x "++" :=
    pyStartswith_cons '+' x "++"
  have e3 : pyStartswith ("+" ++ x) "---" = false :=
    pyStartswith_cons_ne '+' '-' x "--" (by decide)
  rw [e1.trans (pyStartswith_empty x), e3, e2.trans hm]
  simp

/-- C5 (amended).  First part as claimed: `iter_changes X X = []` for
every text `X`.  Second part amended: when the line splits of `A` and
`B` differ (rather than for every `A ≠ B` — texts that differ only in a
trailing line terminator split into identical line lists and produce an
empty summary), the unified diff emits at least one removed line
`"-" ++ s` with `s` a line of `A`, or one added line `"+" ++ s` with
`s` a line of `B`; that entry survives into `iter_changes` unless its
own content begins with `"--"` (resp. `"++"`), in which case the
summary's diff-header filter drops it. -/
theorem spec_C5_amended :
    (∀ X : String, iter_changes X X = []) ∧
    (∀ A B : String, pySplitlines A ≠ pySplitlines B →
      ∃ s : String,
        (s ∈ pySplitlines A ∧
          ("-" ++ s) ∈
            unifiedDiffLines (pySplitlines A) (pySplitlines B) ∧
          (pyStartswith s "--" = false →
            ("-" ++ s) ∈ iter_changes A B)) ∨
        (s ∈ pySplitlines B ∧
          ("+" ++ s) ∈
            unifiedDiffLines (pySplitlines A) (pySplitlines B) ∧
          (pyStartswith s "++" = false →
            ("+" ++ s) ∈ iter_changes A B))) := by
  refine ⟨iter_changes_self, ?_⟩
  intro A B hne
  obtain ⟨op, hop, hopne⟩ := exists_nonequal_of_ne hne
  have hop' : op ∈ opcodesAux 0 0
      (get_matching_blocks (pySplitlines A) (pySplitlines B)) := hop
  have hbounds := opcodes_nonequal_bounds
    (get_matching_blocks (pySplitlines A) (pySplitlines B)) 0 0
    (@gmb_spec (pySplitlines A) (pySplitlines B)).1 op hop' hopne
  obtain ⟨g, hmg, hopg⟩ := mem_grouped_of_nonequal hop hopne
  cases htag : op.tag with
  | equal => exact absurd htag hopne
  | delete =>
    obtain ⟨hlt, hle⟩ := hbounds.1 (Or.inl htag)
    obtain ⟨x, hx⟩ := List.exists_mem_of_ne_nil _ (sliceList_ne_nil hlt hle)
    have hline : ("-" ++ x) ∈ opcodeLines (pySplitlines A) (pySplitlines B)
        op := by
      rw [opcodeLines_delete htag]
      exact List.mem_map.mpr ⟨x, hx, rfl⟩
    have hdiff := mem_unifiedDiff_of_group hmg hopg hline
    refine ⟨x, Or.inl ⟨sliceList_subset hx, hdiff, fun hm => ?_⟩⟩
    unfold iter_changes
    exact List.mem_filter.mpr ⟨hdiff, minus_line_filter hm⟩
  | insert =>
    obtain ⟨hlt, hle⟩ := hbounds.2 (Or.inl htag)
    obtain ⟨x, hx⟩ := List.exists_mem_of_ne_nil _ (sliceList_ne_nil hlt hle)
    have hline : ("+" ++ x) ∈ opcodeLines (pySplitlines A) (pySplitlines B)
        op := by
      rw [opcodeLines_insert htag]
      exact List.mem_map.mpr ⟨x, hx, rfl⟩
    have hdiff := mem_unifiedDiff_of_group hmg hopg hline
    refine ⟨x, Or.inr ⟨sliceList_subset hx, hdiff, fun hm => ?_⟩⟩
    unfold iter_changes
    exact List.mem_filter.mpr ⟨hdiff, plus_line_filter hm⟩
  | replace =>
    obtain ⟨hlt, hle⟩ := hbounds.1 (Or.inr htag)
    obtain ⟨x, hx⟩ := List.exists_mem_of_ne_nil _ (sliceList_ne_nil hlt hle)
    have hline : ("-" ++ x) ∈ opcodeLines (pySplitlines A) (pySplitlines B)
        op := by
      rw [opcodeLines_replace htag]
      exact List.mem_append_left _ (List.mem_map.mpr ⟨x, hx, rfl⟩)
    have hdiff := mem_unifiedDiff_of_group hmg hopg hline
    refine ⟨x, Or.inl ⟨sliceList_subset hx, hdiff, fun hm => ?_⟩⟩
    unfold iter_changes
    exact List.mem_filter.mpr ⟨hdiff, minus_line_filter hm⟩

theorem spec_C5_counterexample :
    ("x\n" : String) ≠ "x" ∧ iter_changes "x\n" "x" = [] := by
  constructor
  · decide
  · have h : pySplitlines "x\n" = pySplitlines "x" := by decide
    unfold iter_changes
    rw [h, unifiedDiff_self]
    rfl

theorem spec_C5_witness :
    pySplitlines "a" ≠ pySplitlines "b" ∧
    (∃ s : String,
      (s ∈ pySplitlines "a" ∧
        ("-" ++ s) ∈ unifiedDiffLines (pySplitlines "a") (pySplitlines "b") ∧
        (pyStartswith s "--" = false → ("-" ++ s) ∈ iter_changes "a" "b")) ∨
      (s ∈ pySplitlines "b" ∧
        ("+" ++ s) ∈ unifiedDiffLines (pySplitlines "a") (pySplitlines "b") ∧
        (pyStartswith s "++" = false → ("+" ++ s) ∈ iter_changes "a" "b"))) :=
  ⟨by decide, spec_C5_amended.2 "a" "b" (by decide)⟩
